import Mathlib

/-!
# goP2 `state.go`: the transactional cursor `BasicState`

A shallow embedding of `src/state.go` and theorems about it.

Conventions of the embedding.

* Go's `interface{}` items of the buffer are values of a type parameter `α`; the context slot is
  an `Option κ`, `none` standing for the `nil` interface value.
* Go's `int` is `Int`.  The only arithmetic of the package is `state.index++` in `Next`, executed
  only after `state.buffer[state.index]` was read, hence with `index < len(buffer) ≤ MaxInt`:
  it cannot overflow, and no `% 2^64` is needed.
* A method with a pointer receiver becomes a function returning its result together with the
  state after the call.
* A Go run-time panic (the index expression of `Next` out of range) is `none`.
* `fmt.Sprintf` belongs to Go's standard library.  Its treatment of formatting verbs and operands
  is a parameter `fmtv` of the embedding; see `Sprintf`.
-/

namespace GoP2

/-- Positional error, `type Error struct { Pos int; Message string }`. -/
structure Error where
  Pos : Int
  Message : String
  deriving DecidableEq, Repr

/-- Cursor state, `type BasicState struct { buffer; index; begin; context }`. -/
structure BasicState (α : Type) (κ : Type) where
  buffer : List α
  index : Int
  begin : Int
  context : Option κ
  deriving DecidableEq, Repr

/-- Go's `fmt.Sprintf(format, args...)`.  A format without any `%` applied to no operand is
rendered as itself; every other case (verbs, or surplus operands) is left to the parameter
`fmtv`, which stands for the standard library. -/
def Sprintf {ι : Type} (fmtv : String → List ι → String) (format : String) (args : List ι) :
    String :=
  if format.toList.all (fun c => c != '%') && args.isEmpty then format else fmtv format args

/-- Constructor `NewBasicState(data)`: a copy of `data`, index `0`, marker `-1`, context `nil`. -/
def NewBasicState {α κ : Type} (data : List α) : BasicState α κ :=
  ⟨data, 0, -1, none⟩

/-- Constructor `BasicStateFromText(str)`: one item per rune of `str`, appended in order to an
empty buffer.  `[]rune(str)` is `str.toList`, a text being a sequence of Unicode characters. -/
def BasicStateFromText {κ : Type} (str : String) : BasicState Char κ :=
  let data := str.toList
  let buffer := data.foldl (fun buffer r => buffer ++ [r]) []
  ⟨buffer, 0, -1, none⟩

namespace BasicState

variable {α κ ι : Type}

/-- Method `Pos`: the current index. -/
def Pos (state : BasicState α κ) : Int :=
  state.index

/-- Method `SeekTo(pos)`: moves the index when `0 <= pos && pos < len(state.buffer)`. -/
def SeekTo (state : BasicState α κ) (pos : Int) : Bool × BasicState α κ :=
  if 0 ≤ pos ∧ pos < (state.buffer.length : Int) then
    (true, ⟨state.buffer, pos, state.begin, state.context⟩)
  else
    (false, state)

/-- Method `Trap(message, args...)`: the error `Error{state.index, fmt.Sprintf(message, args...)}`. -/
def Trap (fmtv : String → List ι → String) (state : BasicState α κ) (message : String)
    (args : List ι) : Error :=
  ⟨state.index, Sprintf fmtv message args⟩

/-- Method `Next`.  At `index == len(buffer)` it returns `(nil, state.Trap("eof"))`; otherwise it
reads `state.buffer[state.index]` (a panic, `none`, when the index is out of range), increments the
index and returns `(re, nil)`. -/
def Next (fmtv : String → List ι → String) (state : BasicState α κ) :
    Option ((Option α × Option Error) × BasicState α κ) :=
  if state.index = (state.buffer.length : Int) then
    some ((none, some (Trap fmtv state "eof" [])), state)
  else if state.index < 0 then
    none
  else
    match state.buffer[state.index.toNat]? with
    | none => none
    | some re => some ((some re, none), ⟨state.buffer, state.index + 1, state.begin, state.context⟩)

/-- Method `Begin`: records the position in the marker when the marker is `-1`, and returns the
current position. -/
def Begin (state : BasicState α κ) : Int × BasicState α κ :=
  let state1 : BasicState α κ :=
    if state.begin = -1 then ⟨state.buffer, state.index, Pos state, state.context⟩ else state
  (Pos state1, state1)

/-- Method `Commit(tran)`: resets the marker to `-1` when it equals `tran`. -/
def Commit (state : BasicState α κ) (tran : Int) : BasicState α κ :=
  if state.begin = tran then ⟨state.buffer, state.index, -1, state.context⟩ else state

/-- Method `Rollback(tran)`: `state.SeekTo(tran)` with the result dropped, then the marker is
reset to `-1` when it equals `tran`. -/
def Rollback (state : BasicState α κ) (tran : Int) : BasicState α κ :=
  let state1 := (SeekTo state tran).2
  if state1.begin = tran then ⟨state1.buffer, state1.index, -1, state1.context⟩ else state1

/-- Method `Context(contex)`: stores the context. -/
def Context (state : BasicState α κ) (contex : Option κ) : BasicState α κ :=
  ⟨state.buffer, state.index, state.begin, contex⟩

/-- Method `ReturnContex`: the stored context. -/
def ReturnContex (state : BasicState α κ) : Option κ :=
  state.context

/-- Method `ResetContex`: sets the context to `nil`. -/
def ResetContex (state : BasicState α κ) : BasicState α κ :=
  ⟨state.buffer, state.index, state.begin, none⟩

/-- The outputs, in order, and the final state of `n` successive `Next` calls; `none` when one of
the calls panics. -/
def NextN (fmtv : String → List ι → String) :
    Nat → BasicState α κ → Option (List (Option α × Option Error) × BasicState α κ)
  | 0, state => some ([], state)
  | n + 1, state =>
    match Next fmtv state with
    | none => none
    | some (out, state1) =>
      match NextN fmtv n state1 with
      | none => none
      | some (outs, state2) => some (out :: outs, state2)

/-- The data model's range of the cursor position: `0 <= index <= len(buffer)`. -/
def InRange (state : BasicState α κ) : Prop :=
  0 ≤ state.index ∧ state.index ≤ (state.buffer.length : Int)

instance (state : BasicState α κ) : Decidable (InRange state) := by
  unfold InRange
  infer_instance

end BasicState

/-- A call of one method of the `State` interface, with its arguments. -/
inductive Op (ι : Type) (κ : Type) where
  | Pos
  | SeekTo (pos : Int)
  | Next
  | Trap (message : String) (args : List ι)
  | Begin
  | Commit (tran : Int)
  | Rollback (tran : Int)
  | Context (contex : Option κ)
  | ReturnContex
  | ResetContex

/-- What a call of a method returns. -/
inductive Ret (α : Type) (κ : Type) where
  | int (n : Int)
  | bool (b : Bool)
  | item (re : Option α) (err : Option Error)
  | error (e : Error)
  | unit
  | value (v : Option κ)

/-- Runs one method call on a state: the value returned and the state after the call, `none` when
the call panics. -/
def step {α κ ι : Type} (fmtv : String → List ι → String) :
    Op ι κ → BasicState α κ → Option (Ret α κ × BasicState α κ)
  | .Pos, state => some (.int state.Pos, state)
  | .SeekTo pos, state => some (.bool (state.SeekTo pos).1, (state.SeekTo pos).2)
  | .Next, state =>
    match state.Next fmtv with
    | none => none
    | some ((re, err), state1) => some (.item re err, state1)
  | .Trap message args, state => some (.error (state.Trap fmtv message args), state)
  | .Begin, state => some (.int state.Begin.1, state.Begin.2)
  | .Commit tran, state => some (.unit, state.Commit tran)
  | .Rollback tran, state => some (.unit, state.Rollback tran)
  | .Context contex, state => some (.unit, state.Context contex)
  | .ReturnContex, state => some (.value state.ReturnContex, state)
  | .ResetContex, state => some (.unit, state.ResetContex)

/-- The states a client of the package can hold: built by one of the two constructors and then
driven by any finite sequence of method calls with arbitrary arguments. -/
inductive Reachable {ι κ : Type} (fmtv : String → List ι → String) :
    {α : Type} → BasicState α κ → Prop where
  | new {α : Type} (data : List α) : Reachable fmtv (NewBasicState data : BasicState α κ)
  | text (str : String) : Reachable fmtv (BasicStateFromText str : BasicState Char κ)
  | step {α : Type} {state state1 : BasicState α κ} (op : Op ι κ) (r : Ret α κ) :
      Reachable fmtv state → step fmtv op state = some (r, state1) → Reachable fmtv state1

/-- A move of a client that nests transactions: consume one item; open a transaction, keeping the
token `Begin` returned; close the innermost open transaction by `Rollback`, or by `Commit`, with
its own token. -/
inductive TxOp where
  | next
  | begin
  | rollback
  | commit
  deriving DecidableEq, Repr

/-- Runs a script of nested transactions from `state`, `toks` holding the tokens of the open
transactions, innermost first.  The result is `true` when no call panics and every `Rollback`
leaves `Pos()` equal to the token it was given.  A `rollback` or `commit` with no open transaction
makes no call. -/
def rollbacksExact {α κ ι : Type} (fmtv : String → List ι → String) :
    List TxOp → BasicState α κ → List Int → Bool
  | [], _, _ => true
  | .next :: ops, state, toks =>
    match state.Next fmtv with
    | none => false
    | some (_, state1) => rollbacksExact fmtv ops state1 toks
  | .begin :: ops, state, toks => rollbacksExact fmtv ops state.Begin.2 (state.Begin.1 :: toks)
  | .rollback :: ops, state, [] => rollbacksExact fmtv ops state []
  | .rollback :: ops, state, t :: toks =>
    decide ((state.Rollback t).Pos = t) && rollbacksExact fmtv ops (state.Rollback t) toks
  | .commit :: ops, state, [] => rollbacksExact fmtv ops state []
  | .commit :: ops, state, t :: toks => rollbacksExact fmtv ops (state.Commit t) toks

/-- A formatter for the concrete scenarios: it is never consulted by `Next`, whose only format is
the verb-free `"eof"`. -/
def plainFmt : String → List Unit → String :=
  fun format _ => format

/-- Runs a finite sequence of method calls: for each call, in order, what it returned and the state
after it; `none` when one of the calls panics. -/
def runOps {α κ ι : Type} (fmtv : String → List ι → String) :
    List (Op ι κ) → BasicState α κ → Option (List (Ret α κ × BasicState α κ))
  | [], _ => some []
  | op :: ops, state =>
    match step fmtv op state with
    | none => none
    | some (r, state1) =>
      match runOps fmtv ops state1 with
      | none => none
      | some tr => some ((r, state1) :: tr)

/-- What a client observes of a call apart from the marker: the value returned, and the buffer,
position and context after the call. -/
def observed {α κ : Type} (p : Ret α κ × BasicState α κ) :
    Ret α κ × List α × Int × Option κ :=
  (p.1, p.2.buffer, p.2.index, p.2.context)

/-- An operand of `fmt.Sprintf` in this package: `Error.Error` passes an `int` and a `string`. -/
inductive FmtArg where
  | int (n : Int)
  | str (s : String)
  deriving DecidableEq, Repr

/-- Go's default rendering of an operand: an `int` in decimal (with a leading `-` when negative),
a `string` as it is. -/
def FmtArg.render : FmtArg → String
  | .int n => toString n
  | .str s => s

/-- The formats of Go's `fmt` the package uses with operands: literal characters are copied, `%d`
renders the next operand, an `int`, in decimal, and `%v` renders the next operand in its default
rendering.  The result is `none` outside this fragment (another verb, flags, an operand of the
wrong type, a missing or a surplus operand). -/
def fmtFragment : List Char → List FmtArg → Option String
  | [], [] => some ""
  | [], _ :: _ => none
  | c :: rest, args =>
    if c = '%' then
      match rest, args with
      | 'd' :: rest1, .int n :: args1 =>
        match fmtFragment rest1 args1 with
        | none => none
        | some out => some (toString n ++ out)
      | 'v' :: rest1, a :: args1 =>
        match fmtFragment rest1 args1 with
        | none => none
        | some out => some (a.render ++ out)
      | _, _ => none
    else
      match fmtFragment rest args with
      | none => none
      | some out => some (String.singleton c ++ out)

/-- The verbs of `fmt.Sprintf` on `int` and `string` operands: the fragment `fmtFragment` where it
applies, the parameter `fmtv` (the rest of the standard library) elsewhere. -/
def fmtVerbs (fmtv : String → List FmtArg → String) (format : String) (args : List FmtArg) :
    String :=
  match fmtFragment format.toList args with
  | some out => out
  | none => fmtv format args

/-- Method `Error` of the positional error: `fmt.Sprintf("stop at %d : %v", e.Pos, e.Message)`. -/
def Error.Error (fmtv : String → List FmtArg → String) (e : Error) : String :=
  Sprintf (fmtVerbs fmtv) "stop at %d : %v" [.int e.Pos, .str e.Message]

/-- A formatter on `int` and `string` operands for the concrete scenarios; the formats of the
package never reach it. -/
def plainVerbs : String → List FmtArg → String :=
  fun format _ => format

/-! ## Basic facts about the methods -/

section Basics

variable {α κ ι : Type} (fmtv : String → List ι → String)

theorem Sprintf_eof : Sprintf fmtv "eof" [] = "eof" := by
  unfold Sprintf
  rfl

theorem SeekTo_fst (state : BasicState α κ) (pos : Int) :
    (state.SeekTo pos).1 = true ↔ 0 ≤ pos ∧ pos < (state.buffer.length : Int) := by
  unfold BasicState.SeekTo
  split <;> simp_all

theorem SeekTo_index_of_true (state : BasicState α κ) (pos : Int)
    (h : 0 ≤ pos ∧ pos < (state.buffer.length : Int)) :
    state.SeekTo pos = (true, ⟨state.buffer, pos, state.begin, state.context⟩) := by
  unfold BasicState.SeekTo
  rw [if_pos h]

theorem SeekTo_of_false (state : BasicState α κ) (pos : Int)
    (h : ¬ (0 ≤ pos ∧ pos < (state.buffer.length : Int))) :
    state.SeekTo pos = (false, state) := by
  unfold BasicState.SeekTo
  rw [if_neg h]

theorem Next_of_eq (state : BasicState α κ) (h : state.index = (state.buffer.length : Int)) :
    state.Next fmtv = some ((none, some ⟨(state.buffer.length : Int), "eof"⟩), state) := by
  unfold BasicState.Next BasicState.Trap
  rw [if_pos h, Sprintf_eof, h]

theorem Next_of_lt (state : BasicState α κ) (h0 : 0 ≤ state.index)
    (h1 : state.index < (state.buffer.length : Int)) :
    ∃ re, state.buffer[state.index.toNat]? = some re ∧
      state.Next fmtv =
        some ((some re, none), ⟨state.buffer, state.index + 1, state.begin, state.context⟩) := by
  have hlt : state.index.toNat < state.buffer.length := by omega
  refine ⟨state.buffer[state.index.toNat], List.getElem?_eq_getElem hlt, ?_⟩
  unfold BasicState.Next
  rw [if_neg (by omega), if_neg (by omega), List.getElem?_eq_getElem hlt]

theorem Next_at (buffer : List α) (i : Nat) (b : Int) (c : Option κ) (hi : i < buffer.length) :
    (⟨buffer, (i : Int), b, c⟩ : BasicState α κ).Next fmtv =
      some ((some buffer[i], none), ⟨buffer, ((i + 1 : Nat) : Int), b, c⟩) := by
  obtain ⟨re, hre, hn⟩ := Next_of_lt fmtv (⟨buffer, (i : Int), b, c⟩ : BasicState α κ)
    (by simp) (by simpa using hi)
  simp only [Int.toNat_ofNat] at hre
  rw [List.getElem?_eq_getElem hi] at hre
  rw [hn]
  simp only [Option.some.injEq] at hre
  subst hre
  simp

/-- Closed form of `n` successive `Next` calls from position `i <= len(buffer)`: the items from
`i` on, in order, then only `eof` errors, the position stopping at `len(buffer)`. -/
theorem NextN_closed (buffer : List α) (b : Int) (c : Option κ) :
    ∀ (n i : Nat), i ≤ buffer.length →
      (⟨buffer, (i : Int), b, c⟩ : BasicState α κ).NextN fmtv n =
        some (((buffer.drop i).take n).map (fun a => (some a, none)) ++
                List.replicate (n - (buffer.length - i))
                  (none, some ⟨(buffer.length : Int), "eof"⟩),
              ⟨buffer, ((min (i + n) buffer.length : Nat) : Int), b, c⟩) := by
  intro n
  induction n with
  | zero =>
    intro i hi
    simp [BasicState.NextN, Nat.min_eq_left hi]
  | succ n ih =>
    intro i hi
    rcases Nat.lt_or_ge i buffer.length with hlt | hge
    · rw [BasicState.NextN, Next_at fmtv buffer i b c hlt]
      simp only
      rw [ih (i + 1) hlt]
      simp only
      have h1 : buffer.drop i = buffer[i] :: buffer.drop (i + 1) :=
        List.drop_eq_getElem_cons hlt
      have h2 : n + 1 - (buffer.length - i) = n - (buffer.length - (i + 1)) := by omega
      have h3 : i + 1 + n = i + (n + 1) := by omega
      rw [h1, h2, h3]
      simp only [List.take_succ_cons, List.map_cons, List.cons_append]
    · have hi2 : i = buffer.length := Nat.le_antisymm hi hge
      subst hi2
      rw [BasicState.NextN, Next_of_eq fmtv _ rfl]
      simp only
      rw [ih buffer.length (Nat.le_refl _)]
      simp [List.replicate_succ]

theorem InRange_step {state state1 : BasicState α κ} {op : Op ι κ} {r : Ret α κ}
    (hs : step fmtv op state = some (r, state1)) (h : state.InRange) : state1.InRange := by
  unfold BasicState.InRange at *
  cases op with
  | Pos => simp only [step, Option.some.injEq, Prod.mk.injEq] at hs; rw [← hs.2]; exact h
  | SeekTo pos =>
    simp only [step, Option.some.injEq, Prod.mk.injEq] at hs
    rw [← hs.2]
    unfold BasicState.SeekTo
    split
    · simp only; omega
    · exact h
  | Next =>
    simp only [step] at hs
    by_cases he : state.index = (state.buffer.length : Int)
    · rw [Next_of_eq fmtv state he] at hs
      simp only [Option.some.injEq, Prod.mk.injEq] at hs
      rw [← hs.2]; exact h
    · obtain ⟨re, -, hn⟩ := Next_of_lt fmtv state h.1 (by omega)
      rw [hn] at hs
      simp only [Option.some.injEq, Prod.mk.injEq] at hs
      rw [← hs.2]
      simp only
      omega
  | Trap message args =>
    simp only [step, Option.some.injEq, Prod.mk.injEq] at hs; rw [← hs.2]; exact h
  | Begin =>
    simp only [step, Option.some.injEq, Prod.mk.injEq] at hs
    rw [← hs.2]
    unfold BasicState.Begin
    simp only
    split <;> exact h
  | Commit tran =>
    simp only [step, Option.some.injEq, Prod.mk.injEq] at hs
    rw [← hs.2]
    unfold BasicState.Commit
    split <;> exact h
  | Rollback tran =>
    simp only [step, Option.some.injEq, Prod.mk.injEq] at hs
    rw [← hs.2]
    unfold BasicState.Rollback BasicState.SeekTo
    simp only
    split <;> split <;> simp only <;> omega
  | Context contex =>
    simp only [step, Option.some.injEq, Prod.mk.injEq] at hs; rw [← hs.2]; exact h
  | ReturnContex =>
    simp only [step, Option.some.injEq, Prod.mk.injEq] at hs; rw [← hs.2]; exact h
  | ResetContex =>
    simp only [step, Option.some.injEq, Prod.mk.injEq] at hs; rw [← hs.2]; exact h

theorem InRange_of_Reachable {κ ι : Type} (fmtv : String → List ι → String) {α : Type}
    {state : BasicState α κ} (h : Reachable fmtv state) : state.InRange := by
  induction h with
  | new data => simp [BasicState.InRange, NewBasicState]
  | text str => simp [BasicState.InRange, BasicStateFromText]
  | step op r _ hs ih => exact InRange_step fmtv hs ih

theorem NextN_new (data : List α) (n : Nat) :
    (NewBasicState data : BasicState α κ).NextN fmtv n =
      some ((data.take n).map (fun a => (some a, none)) ++
              List.replicate (n - data.length) (none, some ⟨(data.length : Int), "eof"⟩),
            ⟨data, ((min n data.length : Nat) : Int), -1, none⟩) := by
  have h := NextN_closed (κ := κ) fmtv data (-1) none n 0 (Nat.zero_le _)
  simpa [NewBasicState] using h

theorem NextN_at_end (state : BasicState α κ) (h : state.index = (state.buffer.length : Int))
    (n : Nat) :
    state.NextN fmtv n =
      some (List.replicate n (none, some ⟨(state.buffer.length : Int), "eof"⟩), state) := by
  induction n with
  | zero => simp [BasicState.NextN]
  | succ n ih =>
    rw [BasicState.NextN, Next_of_eq fmtv state h]
    simp only
    rw [ih]
    simp [List.replicate_succ]

theorem Begin_fst (state : BasicState α κ) : state.Begin.1 = state.index := by
  unfold BasicState.Begin BasicState.Pos
  simp only
  split <;> rfl

theorem Begin_frame (state : BasicState α κ) :
    state.Begin.2.buffer = state.buffer ∧ state.Begin.2.index = state.index ∧
      state.Begin.2.context = state.context := by
  unfold BasicState.Begin
  simp only
  split <;> exact ⟨rfl, rfl, rfl⟩

theorem Commit_frame (state : BasicState α κ) (tran : Int) :
    (state.Commit tran).buffer = state.buffer ∧ (state.Commit tran).index = state.index ∧
      (state.Commit tran).context = state.context := by
  unfold BasicState.Commit
  split <;> exact ⟨rfl, rfl, rfl⟩

theorem Rollback_buffer (state : BasicState α κ) (tran : Int) :
    (state.Rollback tran).buffer = state.buffer := by
  unfold BasicState.Rollback BasicState.SeekTo
  simp only
  split <;> split <;> rfl

theorem Rollback_index (state : BasicState α κ) (tran : Int) :
    (state.Rollback tran).index =
      if 0 ≤ tran ∧ tran < (state.buffer.length : Int) then tran else state.index := by
  unfold BasicState.Rollback BasicState.SeekTo
  simp only
  split <;> split <;> rfl

theorem InRange_Begin {state : BasicState α κ} (h : state.InRange) : state.Begin.2.InRange := by
  obtain ⟨hb, hi, -⟩ := Begin_frame state
  unfold BasicState.InRange at *
  rw [hb, hi]
  exact h

theorem InRange_Commit {state : BasicState α κ} (tran : Int) (h : state.InRange) :
    (state.Commit tran).InRange := by
  obtain ⟨hb, hi, -⟩ := Commit_frame state tran
  unfold BasicState.InRange at *
  rw [hb, hi]
  exact h

theorem InRange_Rollback {state : BasicState α κ} (tran : Int) (h : state.InRange) :
    (state.Rollback tran).InRange := by
  unfold BasicState.InRange at *
  rw [Rollback_buffer, Rollback_index]
  split <;> omega

/-- From a state of the data model `Next` does not panic; it keeps the buffer and never moves the
position backwards or beyond the end. -/
theorem Next_total {state : BasicState α κ} (h : state.InRange) :
    ∃ out state1, state.Next fmtv = some (out, state1) ∧ state1.InRange ∧
      state1.buffer = state.buffer ∧ state.index ≤ state1.index ∧
      (state.index = (state.buffer.length : Int) → state1 = state) := by
  by_cases he : state.index = (state.buffer.length : Int)
  · exact ⟨_, _, Next_of_eq fmtv state he, h, rfl, Int.le_refl _, fun _ => rfl⟩
  · obtain ⟨re, -, hn⟩ := Next_of_lt fmtv state h.1 (by have := h.2; omega)
    refine ⟨_, _, hn, ?_, rfl, ?_, fun h2 => absurd h2 he⟩
    · unfold BasicState.InRange at *
      simp only
      omega
    · simp only
      omega

/-- From a state of the data model any number of `Next` calls runs without panic; the buffer is
kept, the position stays in range and does not decrease, and a cursor at the end stays as it
is. -/
theorem NextN_total (n : Nat) : ∀ {state : BasicState α κ}, state.InRange →
    ∃ outs state1, state.NextN fmtv n = some (outs, state1) ∧ state1.InRange ∧
      state1.buffer = state.buffer ∧ state.index ≤ state1.index ∧
      (state.index = (state.buffer.length : Int) → state1 = state) := by
  induction n with
  | zero =>
    intro state h
    exact ⟨[], state, rfl, h, rfl, Int.le_refl _, fun _ => rfl⟩
  | succ n ih =>
    intro state h
    obtain ⟨out, s1, hn, h1, hb1, hi1, he1⟩ := Next_total fmtv h
    obtain ⟨outs, s2, hn2, h2, hb2, hi2, he2⟩ := ih h1
    refine ⟨out :: outs, s2, ?_, h2, hb2.trans hb1, Int.le_trans hi1 hi2, ?_⟩
    · rw [BasicState.NextN, hn]
      simp only
      rw [hn2]
    · intro he
      have hs1 : s1 = state := he1 he
      subst hs1
      exact he2 he

/-- A rollback to a token that is at most the current position restores the position to the token
exactly, in every state of the data model: when the token is the end position the seek fails, and
the cursor, which cannot be beyond the end, is already there. -/
theorem Rollback_exact {state : BasicState α κ} (h : state.InRange) (t : Int) (h0 : 0 ≤ t)
    (ht : t ≤ state.index) : (state.Rollback t).Pos = t := by
  unfold BasicState.Pos
  unfold BasicState.InRange at h
  rw [Rollback_index]
  split <;> omega

theorem rollbacksExact_of_nested (ops : List TxOp) :
    ∀ (state : BasicState α κ) (toks : List Int), state.InRange →
      (∀ t ∈ toks, 0 ≤ t ∧ t ≤ state.index) → toks.Pairwise (fun a b => b ≤ a) →
      rollbacksExact fmtv ops state toks = true := by
  induction ops with
  | nil => intro state toks _ _ _; rfl
  | cons op ops ih =>
    intro state toks h hle hp
    cases op with
    | next =>
      obtain ⟨out, s1, hn, h1, -, hi1, -⟩ := Next_total fmtv h
      rw [rollbacksExact, hn]
      exact ih s1 toks h1 (fun t ht => ⟨(hle t ht).1, Int.le_trans (hle t ht).2 hi1⟩) hp
    | begin =>
      rw [rollbacksExact]
      obtain ⟨-, hi, -⟩ := Begin_frame state
      refine ih _ _ (InRange_Begin h) ?_ ?_
      · intro t ht
        rw [hi]
        rcases List.mem_cons.1 ht with rfl | ht
        · rw [Begin_fst]
          exact ⟨h.1, Int.le_refl _⟩
        · exact hle t ht
      · rw [List.pairwise_cons]
        refine ⟨fun t ht => ?_, hp⟩
        rw [Begin_fst]
        exact (hle t ht).2
    | rollback =>
      cases toks with
      | nil =>
        rw [rollbacksExact]
        exact ih state [] h hle hp
      | cons t toks =>
        rw [rollbacksExact]
        have hx : (state.Rollback t).Pos = t :=
          Rollback_exact h t (hle t (List.mem_cons_self _ _)).1 (hle t (List.mem_cons_self _ _)).2
        rw [List.pairwise_cons] at hp
        rw [Bool.and_eq_true]
        refine ⟨decide_eq_true hx, ih _ _ (InRange_Rollback t h) ?_ hp.2⟩
        intro u hu
        have hxi : (state.Rollback t).index = t := hx
        rw [hxi]
        exact ⟨(hle u (List.mem_cons_of_mem _ hu)).1, hp.1 u hu⟩
    | commit =>
      cases toks with
      | nil =>
        rw [rollbacksExact]
        exact ih state [] h hle hp
      | cons t toks =>
        rw [rollbacksExact]
        rw [List.pairwise_cons] at hp
        refine ih _ _ (InRange_Commit t h) ?_ hp.2
        intro u hu
        rw [(Commit_frame state t).2.1]
        exact hle u (List.mem_cons_of_mem _ hu)

/-- What `Next` returns depends on the buffer and the position only. -/
theorem Next_out_congr {state state1 : BasicState α κ} (h : state.InRange)
    (hb : state1.buffer = state.buffer) (hi : state1.index = state.index) :
    ∃ out s2 s3, state.Next fmtv = some (out, s2) ∧ state1.Next fmtv = some (out, s3) := by
  by_cases he : state.index = (state.buffer.length : Int)
  · refine ⟨_, _, state1, Next_of_eq fmtv state he, ?_⟩
    rw [Next_of_eq fmtv state1 (by rw [hi, hb]; exact he), hb]
  · have hlt : state.index < (state.buffer.length : Int) := by
      have := h.2
      omega
    obtain ⟨re, hre, hn⟩ := Next_of_lt fmtv state h.1 hlt
    obtain ⟨re1, hre1, hn1⟩ := Next_of_lt fmtv state1 (by rw [hi]; exact h.1)
      (by rw [hi, hb]; exact hlt)
    rw [hb, hi, hre] at hre1
    simp only [Option.some.injEq] at hre1
    subst hre1
    exact ⟨_, _, _, hn, hn1⟩

theorem foldl_append_singleton (l : List α) :
    ∀ acc : List α, l.foldl (fun buffer r => buffer ++ [r]) acc = acc ++ l := by
  induction l with
  | nil => intro acc; simp
  | cons a l ih => intro acc; simp [List.foldl_cons, ih]

/-- The cursor built from a text is the cursor built from the list of its characters. -/
theorem BasicStateFromText_eq (str : String) :
    (BasicStateFromText str : BasicState Char κ) = NewBasicState str.toList := by
  unfold BasicStateFromText NewBasicState
  simp only [foldl_append_singleton, List.nil_append]

/-- Whatever `Next` returns, it leaves buffer, marker and context as they were. -/
theorem Next_frame {state state1 : BasicState α κ} {out : Option α × Option Error}
    (h : state.Next fmtv = some (out, state1)) :
    state1.buffer = state.buffer ∧ state1.begin = state.begin ∧
      state1.context = state.context := by
  unfold BasicState.Next at h
  split at h
  · simp only [Option.some.injEq, Prod.mk.injEq] at h
    rw [← h.2]
    exact ⟨rfl, rfl, rfl⟩
  · split at h
    · exact Option.noConfusion h
    · split at h
      · exact Option.noConfusion h
      · simp only [Option.some.injEq, Prod.mk.injEq] at h
        rw [← h.2]
        exact ⟨rfl, rfl, rfl⟩

/-- A `Next` call that returns no error was made inside the buffer and advanced the position by
one. -/
theorem Next_ok_inv {state state1 : BasicState α κ} {out : Option α × Option Error}
    (h : state.Next fmtv = some (out, state1)) (hok : out.2 = none) :
    0 ≤ state.index ∧ state.index < (state.buffer.length : Int) ∧
      state1.index = state.index + 1 := by
  unfold BasicState.Next at h
  split at h
  · simp only [Option.some.injEq, Prod.mk.injEq] at h
    rw [← h.1] at hok
    exact Option.noConfusion hok
  · rename_i hne
    split at h
    · exact Option.noConfusion h
    · rename_i hneg
      split at h
      · exact Option.noConfusion h
      · rename_i re hre
        simp only [Option.some.injEq, Prod.mk.injEq] at h
        rw [← h.2]
        have hlt : state.index.toNat < state.buffer.length := by
          by_contra hc
          rw [List.getElem?_eq_none (Nat.le_of_not_lt hc)] at hre
          exact Option.noConfusion hre
        refine ⟨by omega, by omega, rfl⟩

/-- A run of `n` successive `Next` calls none of which returns an error advanced the position by
`n`, started inside the buffer if `n > 0`, and left buffer, marker and context as they were. -/
theorem NextN_ok_inv (n : Nat) : ∀ {state state1 : BasicState α κ}
    {outs : List (Option α × Option Error)},
    state.NextN fmtv n = some (outs, state1) → (∀ out ∈ outs, out.2 = none) →
      state1.buffer = state.buffer ∧ state1.begin = state.begin ∧
      state1.context = state.context ∧ state1.index = state.index + (n : Int) ∧
      (0 < n → 0 ≤ state.index) := by
  induction n with
  | zero =>
    intro state state1 outs h _
    simp only [BasicState.NextN, Option.some.injEq, Prod.mk.injEq] at h
    rw [← h.2]
    exact ⟨rfl, rfl, rfl, by simp, fun hn => absurd hn (Nat.lt_irrefl 0)⟩
  | succ n ih =>
    intro state state1 outs h hok
    rw [BasicState.NextN] at h
    cases hx : state.Next fmtv with
    | none =>
      rw [hx] at h
      exact Option.noConfusion h
    | some p =>
      obtain ⟨out, s1⟩ := p
      rw [hx] at h
      simp only at h
      cases hy : s1.NextN fmtv n with
      | none =>
        rw [hy] at h
        exact Option.noConfusion h
      | some q =>
        obtain ⟨outs1, s2⟩ := q
        rw [hy] at h
        simp only [Option.some.injEq, Prod.mk.injEq] at h
        obtain ⟨ho, hs⟩ := h
        subst ho
        subst hs
        obtain ⟨hb, hm, hc⟩ := Next_frame fmtv hx
        obtain ⟨h0, -, hi⟩ := Next_ok_inv fmtv hx (hok out (List.mem_cons_self _ _))
        obtain ⟨hb2, hm2, hc2, hi2, -⟩ :=
          ih hy (fun o ho => hok o (List.mem_cons_of_mem _ ho))
        refine ⟨hb2.trans hb, hm2.trans hm, hc2.trans hc, ?_, fun _ => h0⟩
        rw [hi2, hi]
        push_cast
        omega

theorem Rollback_begin (state : BasicState α κ) (tran : Int) :
    (state.Rollback tran).begin = if state.begin = tran then -1 else state.begin := by
  unfold BasicState.Rollback BasicState.SeekTo
  simp only
  split <;> split <;> simp_all

theorem Commit_begin (state : BasicState α κ) (tran : Int) :
    (state.Commit tran).begin = if state.begin = tran then -1 else state.begin := by
  unfold BasicState.Commit
  split <;> rfl

theorem Begin_begin (state : BasicState α κ) :
    state.Begin.2.begin = if state.begin = -1 then state.index else state.begin := by
  unfold BasicState.Begin BasicState.Pos
  simp only
  split <;> rfl

/-- Every call other than `Next` returns, and `Next` returns in a state of the data model. -/
theorem step_total {state : BasicState α κ} (op : Op ι κ) (h : state.InRange) :
    ∃ r state1, step fmtv op state = some (r, state1) := by
  cases op with
  | Next =>
    obtain ⟨out, s1, hx, -⟩ := Next_total fmtv h
    obtain ⟨re, err⟩ := out
    exact ⟨Ret.item re err, s1, by simp only [step, hx]⟩
  | Pos => exact ⟨_, _, rfl⟩
  | SeekTo pos => exact ⟨_, _, rfl⟩
  | Trap message args => exact ⟨_, _, rfl⟩
  | Begin => exact ⟨_, _, rfl⟩
  | Commit tran => exact ⟨_, _, rfl⟩
  | Rollback tran => exact ⟨_, _, rfl⟩
  | Context contex => exact ⟨_, _, rfl⟩
  | ReturnContex => exact ⟨_, _, rfl⟩
  | ResetContex => exact ⟨_, _, rfl⟩

theorem SeekTo_frame (state : BasicState α κ) (pos : Int) :
    (state.SeekTo pos).2.buffer = state.buffer ∧ (state.SeekTo pos).2.begin = state.begin ∧
      (state.SeekTo pos).2.context = state.context := by
  unfold BasicState.SeekTo
  split <;> exact ⟨rfl, rfl, rfl⟩

theorem Rollback_context (state : BasicState α κ) (tran : Int) :
    (state.Rollback tran).context = state.context := by
  unfold BasicState.Rollback BasicState.SeekTo
  simp only
  split <;> split <;> rfl

/-- No method call changes the buffer. -/
theorem step_buffer {state state1 : BasicState α κ} {op : Op ι κ} {r : Ret α κ}
    (hs : step fmtv op state = some (r, state1)) : state1.buffer = state.buffer := by
  cases op with
  | Next =>
    simp only [step] at hs
    cases hx : state.Next fmtv with
    | none =>
      rw [hx] at hs
      exact Option.noConfusion hs
    | some p =>
      obtain ⟨⟨re, err⟩, s1⟩ := p
      rw [hx] at hs
      simp only [Option.some.injEq, Prod.mk.injEq] at hs
      rw [← hs.2]
      exact (Next_frame fmtv hx).1
  | Pos => simp only [step, Option.some.injEq, Prod.mk.injEq] at hs; rw [← hs.2]
  | SeekTo pos =>
    simp only [step, Option.some.injEq, Prod.mk.injEq] at hs
    rw [← hs.2]
    exact (SeekTo_frame state pos).1
  | Trap message args =>
    simp only [step, Option.some.injEq, Prod.mk.injEq] at hs; rw [← hs.2]
  | Begin =>
    simp only [step, Option.some.injEq, Prod.mk.injEq] at hs
    rw [← hs.2]
    exact (Begin_frame state).1
  | Commit tran =>
    simp only [step, Option.some.injEq, Prod.mk.injEq] at hs
    rw [← hs.2]
    exact (Commit_frame state tran).1
  | Rollback tran =>
    simp only [step, Option.some.injEq, Prod.mk.injEq] at hs
    rw [← hs.2]
    exact Rollback_buffer state tran
  | Context contex =>
    simp only [step, Option.some.injEq, Prod.mk.injEq] at hs; rw [← hs.2]; rfl
  | ReturnContex =>
    simp only [step, Option.some.injEq, Prod.mk.injEq] at hs; rw [← hs.2]
  | ResetContex =>
    simp only [step, Option.some.injEq, Prod.mk.injEq] at hs; rw [← hs.2]; rfl

/-- A call that is neither `Context` nor `ResetContex` leaves the context slot as it was. -/
theorem step_context {state state1 : BasicState α κ} {op : Op ι κ} {r : Ret α κ}
    (hs : step fmtv op state = some (r, state1)) (h1 : ∀ v, op ≠ Op.Context v)
    (h2 : op ≠ Op.ResetContex) : state1.context = state.context := by
  cases op with
  | Next =>
    simp only [step] at hs
    cases hx : state.Next fmtv with
    | none =>
      rw [hx] at hs
      exact Option.noConfusion hs
    | some p =>
      obtain ⟨⟨re, err⟩, s1⟩ := p
      rw [hx] at hs
      simp only [Option.some.injEq, Prod.mk.injEq] at hs
      rw [← hs.2]
      exact (Next_frame fmtv hx).2.2
  | Pos => simp only [step, Option.some.injEq, Prod.mk.injEq] at hs; rw [← hs.2]
  | SeekTo pos =>
    simp only [step, Option.some.injEq, Prod.mk.injEq] at hs
    rw [← hs.2]
    exact (SeekTo_frame state pos).2.2
  | Trap message args =>
    simp only [step, Option.some.injEq, Prod.mk.injEq] at hs; rw [← hs.2]
  | Begin =>
    simp only [step, Option.some.injEq, Prod.mk.injEq] at hs
    rw [← hs.2]
    exact (Begin_frame state).2.2
  | Commit tran =>
    simp only [step, Option.some.injEq, Prod.mk.injEq] at hs
    rw [← hs.2]
    exact (Commit_frame state tran).2.2
  | Rollback tran =>
    simp only [step, Option.some.injEq, Prod.mk.injEq] at hs
    rw [← hs.2]
    exact Rollback_context state tran
  | Context contex => exact absurd rfl (h1 contex)
  | ReturnContex =>
    simp only [step, Option.some.injEq, Prod.mk.injEq] at hs; rw [← hs.2]
  | ResetContex => exact absurd rfl h2

/-- Unfolding of a run whose first call returned. -/
theorem runOps_cons_inv {state : BasicState α κ} {op : Op ι κ} {ops : List (Op ι κ)}
    {tr : List (Ret α κ × BasicState α κ)} (h : runOps fmtv (op :: ops) state = some tr) :
    ∃ r state1 tr1, step fmtv op state = some (r, state1) ∧
      runOps fmtv ops state1 = some tr1 ∧ tr = (r, state1) :: tr1 := by
  rw [runOps] at h
  cases hx : step fmtv op state with
  | none =>
    rw [hx] at h
    exact Option.noConfusion h
  | some p =>
    obtain ⟨r, s1⟩ := p
    rw [hx] at h
    simp only at h
    cases hy : runOps fmtv ops s1 with
    | none =>
      rw [hy] at h
      exact Option.noConfusion h
    | some tr1 =>
      rw [hy] at h
      simp only [Option.some.injEq] at h
      exact ⟨r, s1, tr1, rfl, hy, h.symm⟩

/-- From a state of the data model every finite sequence of calls runs without panic, through
states of the data model. -/
theorem runOps_total (ops : List (Op ι κ)) : ∀ {state : BasicState α κ}, state.InRange →
    ∃ tr, runOps fmtv ops state = some tr ∧ tr.length = ops.length ∧
      ∀ p ∈ tr, p.2.InRange := by
  induction ops with
  | nil =>
    intro state _
    exact ⟨[], rfl, rfl, fun p hp => absurd hp (List.not_mem_nil p)⟩
  | cons op ops ih =>
    intro state h
    obtain ⟨r, s1, hs⟩ := step_total fmtv op h
    have h1 : s1.InRange := InRange_step fmtv hs h
    obtain ⟨tr, htr, hlen, hall⟩ := ih h1
    refine ⟨(r, s1) :: tr, ?_, ?_, ?_⟩
    · rw [runOps, hs]
      simp only
      rw [htr]
    · simp [hlen]
    · intro p hp
      rcases List.mem_cons.1 hp with rfl | hp
      · exact h1
      · exact hall p hp

/-- Throughout a run the buffer is the buffer of the initial state. -/
theorem runOps_buffer (ops : List (Op ι κ)) : ∀ {state : BasicState α κ}
    {tr : List (Ret α κ × BasicState α κ)}, runOps fmtv ops state = some tr →
      ∀ p ∈ tr, p.2.buffer = state.buffer := by
  induction ops with
  | nil =>
    intro state tr h p hp
    simp only [runOps, Option.some.injEq] at h
    rw [← h] at hp
    exact absurd hp (List.not_mem_nil p)
  | cons op ops ih =>
    intro state tr h p hp
    obtain ⟨r, s1, tr1, hs, hr, rfl⟩ := runOps_cons_inv fmtv h
    have hb : s1.buffer = state.buffer := step_buffer fmtv hs
    rcases List.mem_cons.1 hp with rfl | hp
    · exact hb
    · exact (ih hr p hp).trans hb

/-- Throughout a run without `Context` and `ResetContex` calls the context is the context of the
initial state. -/
theorem runOps_context (ops : List (Op ι κ)) : ∀ {state : BasicState α κ}
    {tr : List (Ret α κ × BasicState α κ)}, runOps fmtv ops state = some tr →
      (∀ op ∈ ops, (∀ v, op ≠ Op.Context v) ∧ op ≠ Op.ResetContex) →
      ∀ p ∈ tr, p.2.context = state.context := by
  induction ops with
  | nil =>
    intro state tr h _ p hp
    simp only [runOps, Option.some.injEq] at h
    rw [← h] at hp
    exact absurd hp (List.not_mem_nil p)
  | cons op ops ih =>
    intro state tr h hops p hp
    obtain ⟨r, s1, tr1, hs, hr, rfl⟩ := runOps_cons_inv fmtv h
    have hop := hops op (List.mem_cons_self _ _)
    have hc : s1.context = state.context := step_context fmtv hs hop.1 hop.2
    rcases List.mem_cons.1 hp with rfl | hp
    · exact hc
    · exact (ih hr (fun o ho => hops o (List.mem_cons_of_mem _ ho)) p hp).trans hc

/-- What `Next` returns, and the buffer, position and context it leaves, do not depend on the
marker; nor does whether it panics. -/
theorem Next_marker_indep (buffer : List α) (index m1 m2 : Int) (context : Option κ) :
    (BasicState.Next fmtv ⟨buffer, index, m1, context⟩).map
        (fun p => (p.1, p.2.buffer, p.2.index, p.2.context)) =
      (BasicState.Next fmtv ⟨buffer, index, m2, context⟩).map
        (fun p => (p.1, p.2.buffer, p.2.index, p.2.context)) := by
  unfold BasicState.Next BasicState.Trap
  simp only
  split
  · rfl
  · split
    · rfl
    · cases buffer[index.toNat]? <;> rfl

/-- One call on two states that agree on buffer, position and context returns the same value and
leaves states that agree on buffer, position and context; it panics on both or on neither. -/
theorem step_marker_indep (buffer : List α) (index m1 m2 : Int) (context : Option κ)
    (op : Op ι κ) :
    (step fmtv op ⟨buffer, index, m1, context⟩).map observed =
      (step fmtv op ⟨buffer, index, m2, context⟩).map observed := by
  cases op with
  | Next =>
    have h := Next_marker_indep fmtv buffer index m1 m2 context
    simp only [step]
    cases h1 : BasicState.Next fmtv (⟨buffer, index, m1, context⟩ : BasicState α κ) with
    | none =>
      cases h2 : BasicState.Next fmtv (⟨buffer, index, m2, context⟩ : BasicState α κ) with
      | none => rfl
      | some q =>
        rw [h1, h2] at h
        exact Option.noConfusion h
    | some p =>
      cases h2 : BasicState.Next fmtv (⟨buffer, index, m2, context⟩ : BasicState α κ) with
      | none =>
        rw [h1, h2] at h
        exact Option.noConfusion h
      | some q =>
        rw [h1, h2] at h
        obtain ⟨⟨re, err⟩, s1⟩ := p
        obtain ⟨⟨re2, err2⟩, s2⟩ := q
        simp only [Option.map_some', Option.some.injEq, Prod.mk.injEq] at h
        obtain ⟨⟨hre, herr⟩, hb, hi, hc⟩ := h
        simp only [Option.map_some', observed, hre, herr, hb, hi, hc]
  | Pos => rfl
  | SeekTo pos =>
    simp only [step, BasicState.SeekTo, Option.map_some', observed]
    split <;> rfl
  | Trap message args => rfl
  | Begin =>
    simp only [step, BasicState.Begin, BasicState.Pos, Option.map_some', observed]
    split <;> split <;> rfl
  | Commit tran =>
    simp only [step, BasicState.Commit, Option.map_some', observed]
    split <;> split <;> rfl
  | Rollback tran =>
    simp only [step, BasicState.Rollback, BasicState.SeekTo, Option.map_some', observed]
    split <;> split <;> split <;> rfl
  | Context contex => rfl
  | ReturnContex => rfl
  | ResetContex => rfl

/-- A finite sequence of calls on two states that agree on buffer, position and context returns
the same values and goes through states that agree on buffer, position and context. -/
theorem runOps_marker_indep (ops : List (Op ι κ)) :
    ∀ (buffer : List α) (index m1 m2 : Int) (context : Option κ),
      (runOps fmtv ops ⟨buffer, index, m1, context⟩).map (List.map observed) =
        (runOps fmtv ops ⟨buffer, index, m2, context⟩).map (List.map observed) := by
  induction ops with
  | nil => intro buffer index m1 m2 context; rfl
  | cons op ops ih =>
    intro buffer index m1 m2 context
    have h := step_marker_indep fmtv buffer index m1 m2 context op
    rw [runOps, runOps]
    cases h1 : step fmtv op (⟨buffer, index, m1, context⟩ : BasicState α κ) with
    | none =>
      cases h2 : step fmtv op (⟨buffer, index, m2, context⟩ : BasicState α κ) with
      | none => rfl
      | some q =>
        rw [h1, h2] at h
        exact Option.noConfusion h
    | some p =>
      cases h2 : step fmtv op (⟨buffer, index, m2, context⟩ : BasicState α κ) with
      | none =>
        rw [h1, h2] at h
        exact Option.noConfusion h
      | some q =>
        rw [h1, h2] at h
        obtain ⟨r, ⟨b1, i1, n1, c1⟩⟩ := p
        obtain ⟨r2, ⟨b2, i2, n2, c2⟩⟩ := q
        simp only [Option.map_some', observed, Option.some.injEq, Prod.mk.injEq] at h
        obtain ⟨hr, hb, hi, hc⟩ := h
        subst hr hb hi hc
        have hrec := ih b1 i1 n1 n2 c1
        simp only
        cases h3 : runOps fmtv ops (⟨b1, i1, n1, c1⟩ : BasicState α κ) with
        | none =>
          cases h4 : runOps fmtv ops (⟨b1, i1, n2, c1⟩ : BasicState α κ) with
          | none => rfl
          | some t2 =>
            rw [h3, h4] at hrec
            exact Option.noConfusion hrec
        | some t1 =>
          cases h4 : runOps fmtv ops (⟨b1, i1, n2, c1⟩ : BasicState α κ) with
          | none =>
            rw [h3, h4] at hrec
            exact Option.noConfusion hrec
          | some t2 =>
            rw [h3, h4] at hrec
            simp only [Option.map_some', Option.some.injEq] at hrec
            simp only [Option.map_some', List.map_cons, observed, hrec]

/-- Throughout a run without `Context` calls that starts with the context `nil`, the context is
`nil`. -/
theorem runOps_context_none (ops : List (Op ι κ)) : ∀ {state : BasicState α κ}
    {tr : List (Ret α κ × BasicState α κ)}, state.context = none →
      (∀ op ∈ ops, ∀ v, op ≠ Op.Context v) → runOps fmtv ops state = some tr →
      ∀ p ∈ tr, p.2.context = none := by
  induction ops with
  | nil =>
    intro state tr _ _ h p hp
    simp only [runOps, Option.some.injEq] at h
    rw [← h] at hp
    exact absurd hp (List.not_mem_nil p)
  | cons op ops ih =>
    intro state tr hst hops h p hp
    obtain ⟨r, s1, tr1, hs, hr, rfl⟩ := runOps_cons_inv fmtv h
    have hc1 : s1.context = none := by
      by_cases hreset : op = Op.ResetContex
      · subst hreset
        simp only [step, Option.some.injEq, Prod.mk.injEq] at hs
        rw [← hs.2]
        rfl
      · rw [step_context fmtv hs (hops op (List.mem_cons_self _ _)) hreset]
        exact hst
    rcases List.mem_cons.1 hp with rfl | hp
    · exact hc1
    · exact ih hc1 (fun o ho => hops o (List.mem_cons_of_mem _ ho)) hr p hp

end Basics

/-! ## C1: seek bounds -/

/-- C1. For every state and every integer `p`, `SeekTo(p)` returns true exactly when
`0 <= p < len(buffer)`; when it returns true the position afterwards is `p`, and when it returns
false the position afterwards is the position before the call. -/
theorem C1_SeekTo_bounds {α κ : Type} (state : BasicState α κ) (p : Int) :
    ((state.SeekTo p).1 = true ↔ 0 ≤ p ∧ p < (state.buffer.length : Int)) ∧
    ((state.SeekTo p).1 = true → (state.SeekTo p).2.Pos = p) ∧
    ((state.SeekTo p).1 = false → (state.SeekTo p).2.Pos = state.Pos) := by
  refine ⟨SeekTo_fst state p, ?_, ?_⟩
  · intro h
    rw [SeekTo_index_of_true state p ((SeekTo_fst state p).1 h)]
    rfl
  · intro h
    have hn : ¬ (0 ≤ p ∧ p < (state.buffer.length : Int)) := by
      intro hp
      rw [(SeekTo_fst state p).2 hp] at h
      exact Bool.noConfusion h
    rw [SeekTo_of_false state p hn]

/-! ## C2: sequential consumption -/

/-- C2. On a cursor freshly built by `NewBasicState` from the items `data` (`n` of them), the
`k`-th successive `Next` call, `k < n`, is made at position `k`, returns the item `data[k]` with no
error and leaves the position at `k + 1`; the `n` calls together return the items in order; after
`n` or more calls the position is `n`, and one more call returns the error "eof" at position `n`
without changing the state.  Scenario A: the cursor over the text "ab" yields `a` (position 1),
`b` (position 2), then the error "eof" at position 2, the position staying 2. -/
theorem C2_sequential_consumption {α κ ι : Type} (fmtv : String → List ι → String)
    (data : List α) :
    (∀ (k : Nat) (hk : k < data.length), ∃ outs sk sk1,
        (NewBasicState data : BasicState α κ).NextN fmtv k = some (outs, sk) ∧
        sk.Pos = (k : Int) ∧
        sk.Next fmtv = some ((some data[k], none), sk1) ∧
        sk1.Pos = (k : Int) + 1) ∧
    (∃ sn, (NewBasicState data : BasicState α κ).NextN fmtv data.length =
        some (data.map (fun a => (some a, none)), sn) ∧ sn.Pos = (data.length : Int)) ∧
    (∀ (k : Nat), data.length ≤ k → ∃ outs sk,
        (NewBasicState data : BasicState α κ).NextN fmtv k = some (outs, sk) ∧
        sk.Pos = (data.length : Int) ∧
        sk.Next fmtv = some ((none, some ⟨(data.length : Int), "eof"⟩), sk)) ∧
    (∃ s1 s2 : BasicState Char κ,
        (BasicStateFromText "ab" : BasicState Char κ).Next fmtv = some ((some 'a', none), s1) ∧
        s1.Pos = 1 ∧
        s1.Next fmtv = some ((some 'b', none), s2) ∧
        s2.Pos = 2 ∧
        s2.Next fmtv = some ((none, some ⟨2, "eof"⟩), s2) ∧
        s2.Pos = 2) := by
  refine ⟨?_, ?_, ?_, ?_⟩
  · intro k hk
    refine ⟨_, _, ⟨data, ((k + 1 : Nat) : Int), -1, none⟩, NextN_new fmtv data k, ?_, ?_, ?_⟩
    · simp [BasicState.Pos, Nat.min_eq_left (Nat.le_of_lt hk)]
    · rw [Nat.min_eq_left (Nat.le_of_lt hk)]
      exact Next_at fmtv data k (-1) none hk
    · simp [BasicState.Pos]
  · refine ⟨⟨data, (data.length : Int), -1, none⟩, ?_, rfl⟩
    rw [NextN_new fmtv data data.length]
    simp
  · intro k hk
    refine ⟨_, _, NextN_new fmtv data k, ?_, ?_⟩
    · simp [BasicState.Pos, Nat.min_eq_right hk]
    · rw [Nat.min_eq_right hk]
      exact Next_of_eq fmtv _ rfl
  · exact ⟨⟨['a', 'b'], 1, -1, none⟩, ⟨['a', 'b'], 2, -1, none⟩, rfl, rfl, rfl, rfl, rfl, rfl⟩

/-- C2 at a concrete input: on the items `[10, 20, 30]` the call number 1 (counting from 0)
returns `20` and leaves the position at 2, and after 5 calls the position is 3 and `Next` fails
with "eof" at 3. -/
theorem C2_sequential_consumption_witness :
    (∃ outs sk sk1,
        (NewBasicState [10, 20, 30] : BasicState Nat Unit).NextN plainFmt 1 = some (outs, sk) ∧
        sk.Pos = 1 ∧ sk.Next plainFmt = some ((some 20, none), sk1) ∧ sk1.Pos = 1 + 1) ∧
    (∃ outs sk,
        (NewBasicState [10, 20, 30] : BasicState Nat Unit).NextN plainFmt 5 = some (outs, sk) ∧
        sk.Pos = 3 ∧ sk.Next plainFmt = some ((none, some ⟨3, "eof"⟩), sk)) :=
  ⟨(C2_sequential_consumption (κ := Unit) plainFmt [10, 20, 30]).1 1 (by decide),
   (C2_sequential_consumption (κ := Unit) plainFmt [10, 20, 30]).2.2.1 5 (by decide)⟩

/-! ## C3: `Next` at the end of the sequence and before it -/

/-- C3. In a state with `index == len(buffer)`, `Trap("eof")` is `Error{len(buffer), "eof"}`,
`Next` returns no item and that error and leaves the whole state unchanged, and so do any number
of successive `Next` calls.  In a state of the data model (`0 <= index`) with
`index < len(buffer)`, `Next` returns the item at `index` with no error and increments the index
by one, leaving buffer, marker and context unchanged. -/
theorem C3_Next_cases {α κ ι : Type} (fmtv : String → List ι → String)
    (state : BasicState α κ) :
    (state.index = (state.buffer.length : Int) →
        state.Trap fmtv "eof" [] = ⟨(state.buffer.length : Int), "eof"⟩ ∧
        state.Next fmtv = some ((none, some (state.Trap fmtv "eof" [])), state) ∧
        ∀ n : Nat, state.NextN fmtv n =
          some (List.replicate n (none, some ⟨(state.buffer.length : Int), "eof"⟩), state)) ∧
    (0 ≤ state.index → state.index < (state.buffer.length : Int) →
        ∃ re, state.buffer[state.index.toNat]? = some re ∧
          state.Next fmtv =
            some ((some re, none),
                  ⟨state.buffer, state.index + 1, state.begin, state.context⟩)) := by
  refine ⟨?_, ?_⟩
  · intro h
    have ht : state.Trap fmtv "eof" [] = ⟨(state.buffer.length : Int), "eof"⟩ := by
      unfold BasicState.Trap
      rw [Sprintf_eof, h]
    refine ⟨ht, ?_, NextN_at_end fmtv state h⟩
    rw [ht]
    exact Next_of_eq fmtv state h
  · intro h0 h1
    exact Next_of_lt fmtv state h0 h1

/-- C3 at concrete inputs: at the end of `[7, 8]` three `Next` calls return the same error and
the same state; at index 1 `Next` returns the item `8`. -/
theorem C3_Next_cases_witness :
    ((⟨[7, 8], 2, 0, some 5⟩ : BasicState Nat Nat).NextN plainFmt 3 =
        some (List.replicate 3 (none, some ⟨2, "eof"⟩), ⟨[7, 8], 2, 0, some 5⟩)) ∧
    (∃ re, [7, 8][(1 : Int).toNat]? = some re ∧
        (⟨[7, 8], 1, 0, some 5⟩ : BasicState Nat Nat).Next plainFmt =
          some ((some re, none), ⟨[7, 8], 1 + 1, 0, some 5⟩)) :=
  ⟨((C3_Next_cases plainFmt (⟨[7, 8], 2, 0, some 5⟩ : BasicState Nat Nat)).1 rfl).2.2 3,
   (C3_Next_cases plainFmt (⟨[7, 8], 1, 0, some 5⟩ : BasicState Nat Nat)).2
     (by decide) (by decide)⟩

/-! ## C4: rollback restores the position exactly -/

/-- C4. In every state reachable from construction, the token `t` returned by `Begin()` is the
current position `Pos()`; after any number `n >= 0` of subsequent `Next` calls (none of which
panics) `Rollback(t)` leaves `Pos() == t`, whether `t` was taken from `Pos()` or from `Begin()`,
and the `Next` call that follows the rollback returns what `Next` returned at the moment the token
was taken.  The same holds under arbitrary nesting: in every script of `Next`, `Begin`, `Commit`
and `Rollback` calls in which each transaction is closed with its own token, every `Rollback`
leaves `Pos()` equal to its token. -/
theorem C4_rollback_restores {α κ ι : Type} (fmtv : String → List ι → String)
    (state : BasicState α κ) (h : Reachable fmtv state) :
    state.Begin.1 = state.Pos ∧
    (∀ n : Nat, ∃ outs s1, state.NextN fmtv n = some (outs, s1) ∧
        (s1.Rollback state.Pos).Pos = state.Pos) ∧
    (∀ n : Nat, ∃ outs s1, state.Begin.2.NextN fmtv n = some (outs, s1) ∧
        (s1.Rollback state.Begin.1).Pos = state.Begin.1 ∧
        ∃ out s2 s3, state.Next fmtv = some (out, s2) ∧
          (s1.Rollback state.Begin.1).Next fmtv = some (out, s3)) ∧
    (∀ ops : List TxOp, rollbacksExact fmtv ops state [] = true) := by
  have hr : state.InRange := InRange_of_Reachable fmtv h
  refine ⟨Begin_fst state, ?_, ?_, ?_⟩
  · intro n
    obtain ⟨outs, s1, hn, h1, -, hi, -⟩ := NextN_total fmtv n hr
    exact ⟨outs, s1, hn, Rollback_exact h1 state.Pos hr.1 hi⟩
  · intro n
    obtain ⟨hbb, hbi, -⟩ := Begin_frame state
    obtain ⟨outs, s1, hn, h1, hb, hi, -⟩ := NextN_total fmtv n (InRange_Begin hr)
    rw [hbi] at hi
    have hx : (s1.Rollback state.Begin.1).Pos = state.Begin.1 := by
      rw [Begin_fst]
      exact Rollback_exact h1 state.index hr.1 hi
    refine ⟨outs, s1, hn, hx, ?_⟩
    refine Next_out_congr fmtv hr ?_ ?_
    · rw [Rollback_buffer, hb, hbb]
    · have hx2 : (s1.Rollback state.Begin.1).index = state.Begin.1 := hx
      rw [hx2, Begin_fst]
  · intro ops
    exact rollbacksExact_of_nested fmtv ops state [] hr (fun t ht => absurd ht (List.not_mem_nil t))
      List.Pairwise.nil

/-- C4 on scenario B: cursor over "abc"; `t := Begin()` is 0; two `Next` calls bring the position
to 2; `Rollback(t)` brings it back to 0 and the following `Next` yields `a` again.  A nested script
(two transactions, the inner one rolled back first) restores each token. -/
theorem C4_rollback_restores_witness :
    ((BasicStateFromText "abc" : BasicState Char Unit).Begin.1 = 0 ∧
      ∃ outs s1, (BasicStateFromText "abc" : BasicState Char Unit).Begin.2.NextN plainFmt 2 =
          some (outs, s1) ∧
        (s1.Rollback (BasicStateFromText "abc" : BasicState Char Unit).Begin.1).Pos =
          (BasicStateFromText "abc" : BasicState Char Unit).Begin.1 ∧
        ∃ out s2 s3, (BasicStateFromText "abc" : BasicState Char Unit).Next plainFmt =
            some (out, s2) ∧
          (s1.Rollback (BasicStateFromText "abc" : BasicState Char Unit).Begin.1).Next plainFmt =
            some (out, s3)) ∧
    (BasicStateFromText "abc" : BasicState Char Unit).Begin.2.NextN plainFmt 2 =
      some ([(some 'a', none), (some 'b', none)], ⟨['a', 'b', 'c'], 2, 0, none⟩) ∧
    (⟨['a', 'b', 'c'], 2, 0, none⟩ : BasicState Char Unit).Rollback 0 =
      ⟨['a', 'b', 'c'], 0, -1, none⟩ ∧
    (⟨['a', 'b', 'c'], 0, -1, none⟩ : BasicState Char Unit).Next plainFmt =
      some ((some 'a', none), ⟨['a', 'b', 'c'], 1, -1, none⟩) ∧
    rollbacksExact plainFmt [.begin, .next, .begin, .next, .next, .next, .rollback, .rollback]
      (BasicStateFromText "abc" : BasicState Char Unit) [] = true :=
  ⟨⟨rfl, (C4_rollback_restores plainFmt (BasicStateFromText "abc" : BasicState Char Unit)
      (Reachable.text "abc")).2.2.1 2⟩,
   rfl, rfl, rfl,
   (C4_rollback_restores plainFmt (BasicStateFromText "abc" : BasicState Char Unit)
      (Reachable.text "abc")).2.2.2 _⟩

/-! ## C5: which tokens are valid seek targets -/

/-- C5, as stated, fails.  After the two `Next` calls that consume the text "ab" the cursor is
in a reachable state in which `Pos()` and `Begin()` both return 2, the length of the buffer: the
token is not in `[0, length)`, and `SeekTo` of it returns false.  The fresh cursor over the empty
sequence is a second instance: `Pos()` returns `0 = length`. -/
theorem C5_token_validity_counterexample :
    Reachable plainFmt (⟨['a', 'b'], 2, -1, none⟩ : BasicState Char Unit) ∧
    (⟨['a', 'b'], 2, -1, none⟩ : BasicState Char Unit).Pos = 2 ∧
    (⟨['a', 'b'], 2, -1, none⟩ : BasicState Char Unit).Begin.1 = 2 ∧
    ((⟨['a', 'b'], 2, -1, none⟩ : BasicState Char Unit).buffer.length : Int) = 2 ∧
    ¬ ((⟨['a', 'b'], 2, -1, none⟩ : BasicState Char Unit).Pos <
        ((⟨['a', 'b'], 2, -1, none⟩ : BasicState Char Unit).buffer.length : Int)) ∧
    ((⟨['a', 'b'], 2, -1, none⟩ : BasicState Char Unit).SeekTo 2).1 = false ∧
    Reachable plainFmt (NewBasicState [] : BasicState Char Unit) ∧
    ¬ ((NewBasicState [] : BasicState Char Unit).Pos <
        ((NewBasicState [] : BasicState Char Unit).buffer.length : Int)) := by
  refine ⟨?_, rfl, rfl, rfl, by decide, rfl, Reachable.new [], by decide⟩
  have h0 : Reachable plainFmt (BasicStateFromText "ab" : BasicState Char Unit) :=
    Reachable.text "ab"
  have h1 : Reachable plainFmt (⟨['a', 'b'], 1, -1, none⟩ : BasicState Char Unit) :=
    Reachable.step Op.Next (Ret.item (some 'a') none) h0 rfl
  exact Reachable.step Op.Next (Ret.item (some 'b') none) h1 rfl

/-- C5, amended.  In every state reachable from construction the value returned by `Pos()` and by
`Begin()` is the current position and lies in `[0, length]`; `SeekTo` of it (in the state itself
and in any state over the same buffer) succeeds exactly when it is below `length`, that is when
the cursor is not at the end of the sequence, where the token equals `length` and `SeekTo` of it
returns false without moving the cursor. -/
theorem C5_token_validity_amended {α κ ι : Type} (fmtv : String → List ι → String)
    (state : BasicState α κ) (h : Reachable fmtv state) :
    state.Begin.1 = state.Pos ∧
    0 ≤ state.Pos ∧ state.Pos ≤ (state.buffer.length : Int) ∧
    (∀ state1 : BasicState α κ, state1.buffer = state.buffer →
        ((state1.SeekTo state.Pos).1 = true ↔ state.Pos < (state.buffer.length : Int))) ∧
    (state.Pos = (state.buffer.length : Int) → state.SeekTo state.Pos = (false, state)) := by
  have hr : state.InRange := InRange_of_Reachable fmtv h
  unfold BasicState.InRange at hr
  refine ⟨Begin_fst state, hr.1, hr.2, ?_, ?_⟩
  · intro state1 hb
    rw [SeekTo_fst, hb]
    unfold BasicState.Pos
    constructor
    · intro hx; exact hx.2
    · intro hx; exact ⟨hr.1, hx⟩
  · intro he
    exact SeekTo_of_false state state.Pos (by omega)

/-- C5 amended, at concrete inputs: in the middle of "ab" the token 1 is a valid seek target. -/
theorem C5_token_validity_amended_witness :
    (⟨['a', 'b'], 1, -1, none⟩ : BasicState Char Unit).Begin.1 = 1 ∧
    ((⟨['a', 'b'], 2, -1, none⟩ : BasicState Char Unit).SeekTo 1).1 = true :=
  have h1 : Reachable plainFmt (⟨['a', 'b'], 1, -1, none⟩ : BasicState Char Unit) :=
    Reachable.step Op.Next (Ret.item (some 'a') none) (Reachable.text "ab") rfl
  ⟨(C5_token_validity_amended plainFmt _ h1).1,
   ((C5_token_validity_amended plainFmt _ h1).2.2.2.1 ⟨['a', 'b'], 2, -1, none⟩ rfl).2
     (by decide)⟩

/-! ## C6: the end position is reached by consumption, never by a seek -/

/-- C6. On a fresh cursor over `n` items (built from a list, or from a text of `n` characters),
`n` successive `Next` calls run without panic and leave `Pos() == n`; in every state `SeekTo` of
the length of the buffer returns false and leaves the state as it is; and whenever the position
after a `SeekTo(p)` call is the end position, it was the end position before the call. -/
theorem C6_end_asymmetry {α κ ι : Type} (fmtv : String → List ι → String) :
    (∀ data : List α, ∃ outs sn,
        (NewBasicState data : BasicState α κ).NextN fmtv data.length = some (outs, sn) ∧
        sn.buffer = data ∧ sn.Pos = (data.length : Int)) ∧
    (∀ str : String, ∃ outs sn,
        (BasicStateFromText str : BasicState Char κ).NextN fmtv str.toList.length =
          some (outs, sn) ∧
        sn.buffer = str.toList ∧ sn.Pos = (str.toList.length : Int)) ∧
    (∀ state : BasicState α κ,
        state.SeekTo (state.buffer.length : Int) = (false, state)) ∧
    (∀ (state : BasicState α κ) (p : Int),
        (state.SeekTo p).2.buffer = state.buffer ∧
        ((state.SeekTo p).2.Pos = (state.buffer.length : Int) →
          state.Pos = (state.buffer.length : Int))) := by
  have hnew : ∀ {β : Type} (data : List β), ∃ outs sn,
      (NewBasicState data : BasicState β κ).NextN fmtv data.length = some (outs, sn) ∧
      sn.buffer = data ∧ sn.Pos = (data.length : Int) := by
    intro β data
    refine ⟨_, _, NextN_new fmtv data data.length, rfl, ?_⟩
    simp [BasicState.Pos]
  refine ⟨fun data => hnew data, ?_, ?_, ?_⟩
  · intro str
    rw [BasicStateFromText_eq]
    exact hnew str.toList
  · intro state
    exact SeekTo_of_false state _ (by omega)
  · intro state p
    by_cases hp : 0 ≤ p ∧ p < (state.buffer.length : Int)
    · rw [SeekTo_index_of_true state p hp]
      refine ⟨rfl, ?_⟩
      intro hx
      simp only [BasicState.Pos] at hx
      omega
    · rw [SeekTo_of_false state p hp]
      exact ⟨rfl, fun hx => hx⟩

/-! ## C7: the contract of `Begin` -/

/-- C7. For every state, `Begin()` returns the current position and leaves index, buffer and
context unchanged; when the marker was `-1` before the call it is the current position after it,
and when the marker was set it is left as it was. -/
theorem C7_Begin_contract {α κ : Type} (state : BasicState α κ) :
    state.Begin.1 = state.Pos ∧
    state.Begin.2.index = state.index ∧
    state.Begin.2.buffer = state.buffer ∧
    state.Begin.2.context = state.context ∧
    (state.begin = -1 → state.Begin.2.begin = state.Pos) ∧
    (state.begin ≠ -1 → state.Begin.2.begin = state.begin) := by
  obtain ⟨hb, hi, hc⟩ := Begin_frame state
  refine ⟨Begin_fst state, hi, hb, hc, ?_, ?_⟩
  · intro h
    unfold BasicState.Begin
    simp only
    rw [if_pos h]
  · intro h
    unfold BasicState.Begin
    simp only
    rw [if_neg h]

/-- C7 at concrete inputs: with the marker unset at position 2 `Begin` records 2; with the marker
at 0 a nested `Begin` at position 2 returns 2 and leaves the marker at 0. -/
theorem C7_Begin_contract_witness :
    (⟨[7, 8, 9], 2, -1, none⟩ : BasicState Nat Unit).Begin.2.begin = 2 ∧
    (⟨[7, 8, 9], 2, 0, none⟩ : BasicState Nat Unit).Begin.1 = 2 ∧
    (⟨[7, 8, 9], 2, 0, none⟩ : BasicState Nat Unit).Begin.2.begin = 0 :=
  ⟨(C7_Begin_contract (⟨[7, 8, 9], 2, -1, none⟩ : BasicState Nat Unit)).2.2.2.2.1 rfl,
   (C7_Begin_contract (⟨[7, 8, 9], 2, 0, none⟩ : BasicState Nat Unit)).1,
   (C7_Begin_contract (⟨[7, 8, 9], 2, 0, none⟩ : BasicState Nat Unit)).2.2.2.2.2 (by decide)⟩

/-! ## C8: `Commit` preserves the position -/

/-- C8. For every state and every integer token `t`, `Commit(t)` leaves the position, the buffer
and the context unchanged; the marker becomes `-1` when it equalled `t` and is otherwise
unchanged. -/
theorem C8_Commit_frame {α κ : Type} (state : BasicState α κ) (t : Int) :
    (state.Commit t).Pos = state.Pos ∧
    (state.Commit t).buffer = state.buffer ∧
    (state.Commit t).context = state.context ∧
    (state.begin = t → (state.Commit t).begin = -1) ∧
    (state.begin ≠ t → (state.Commit t).begin = state.begin) := by
  obtain ⟨hb, hi, hc⟩ := Commit_frame state t
  refine ⟨hi, hb, hc, ?_, ?_⟩
  · intro h
    unfold BasicState.Commit
    rw [if_pos h]
  · intro h
    unfold BasicState.Commit
    rw [if_neg h]

/-- C8 at concrete inputs: committing the marker's value clears it, committing another token does
not, and the position stays 2 in both cases. -/
theorem C8_Commit_frame_witness :
    ((⟨[7, 8, 9], 2, 1, none⟩ : BasicState Nat Unit).Commit 1).begin = -1 ∧
    ((⟨[7, 8, 9], 2, 1, none⟩ : BasicState Nat Unit).Commit 2).begin = 1 ∧
    ((⟨[7, 8, 9], 2, 1, none⟩ : BasicState Nat Unit).Commit 1).Pos = 2 :=
  ⟨(C8_Commit_frame (⟨[7, 8, 9], 2, 1, none⟩ : BasicState Nat Unit) 1).2.2.2.1 rfl,
   (C8_Commit_frame (⟨[7, 8, 9], 2, 1, none⟩ : BasicState Nat Unit) 2).2.2.2.2 (by decide),
   (C8_Commit_frame (⟨[7, 8, 9], 2, 1, none⟩ : BasicState Nat Unit) 1).1⟩

/-! ## C9: marker scoping -/

/-- C9. Take a cursor whose marker is unset, `t1 = Begin()`, then `n >= 1` `Next` calls none of
which returns an error, then `t2 = Begin()`.  Then `t1 != t2`, the marker is `t1` after the first
and after the second `Begin`, `Commit(t2)` and `Rollback(t2)` leave the marker at `t1`, and
`Commit(t1)` and `Rollback(t1)` set it to `-1`. -/
theorem C9_marker_scoping {α κ ι : Type} (fmtv : String → List ι → String)
    (state s1 : BasicState α κ) (n : Nat) (outs : List (Option α × Option Error))
    (hm : state.begin = -1) (hn : 0 < n)
    (hrun : state.Begin.2.NextN fmtv n = some (outs, s1))
    (hok : ∀ out ∈ outs, out.2 = none) :
    state.Begin.1 ≠ s1.Begin.1 ∧
    state.Begin.2.begin = state.Begin.1 ∧
    s1.Begin.2.begin = state.Begin.1 ∧
    (s1.Begin.2.Commit s1.Begin.1).begin = state.Begin.1 ∧
    (s1.Begin.2.Rollback s1.Begin.1).begin = state.Begin.1 ∧
    (s1.Begin.2.Commit state.Begin.1).begin = -1 ∧
    (s1.Begin.2.Rollback state.Begin.1).begin = -1 := by
  obtain ⟨-, hbi, -⟩ := Begin_frame state
  obtain ⟨-, hm1, -, hi1, h0⟩ := NextN_ok_inv fmtv n hrun hok
  have h0i : 0 ≤ state.index := by
    have := h0 hn
    rw [hbi] at this
    exact this
  have hb0 : state.Begin.2.begin = state.index := by
    rw [Begin_begin, if_pos hm]
  have hs1m : s1.begin = state.index := hm1.trans hb0
  have hs1i : s1.index = state.index + (n : Int) := by rw [hi1, hbi]
  have hne1 : s1.begin ≠ -1 := by omega
  have hb1 : s1.Begin.2.begin = state.index := by
    rw [Begin_begin, if_neg hne1]
    exact hs1m
  have hnpos : (0 : Int) < (n : Int) := by exact_mod_cast hn
  have hne : state.index ≠ s1.index := by omega
  rw [Begin_fst, Begin_fst, Commit_begin, Commit_begin, Rollback_begin, Rollback_begin, hb0, hb1]
  refine ⟨hne, rfl, rfl, ?_, ?_, ?_, ?_⟩
  · rw [if_neg hne]
  · rw [if_neg hne]
  · rw [if_pos rfl]
  · rw [if_pos rfl]

/-- C9 on scenario C: cursor over "abc"; `t1 = Begin()` is 0; `Next()`; `t2 = Begin()` is 1 with
the marker still 0; `Next()`; `Rollback(t2)` gives position 1 with the marker still 0;
`Commit(t1)` clears the marker. -/
theorem C9_marker_scoping_witness :
    ((BasicStateFromText "abc" : BasicState Char Unit).Begin.1 ≠
        (⟨['a', 'b', 'c'], 1, 0, none⟩ : BasicState Char Unit).Begin.1 ∧
      (BasicStateFromText "abc" : BasicState Char Unit).Begin.2.begin =
        (BasicStateFromText "abc" : BasicState Char Unit).Begin.1 ∧
      (⟨['a', 'b', 'c'], 1, 0, none⟩ : BasicState Char Unit).Begin.2.begin =
        (BasicStateFromText "abc" : BasicState Char Unit).Begin.1 ∧
      ((⟨['a', 'b', 'c'], 1, 0, none⟩ : BasicState Char Unit).Begin.2.Commit
          (⟨['a', 'b', 'c'], 1, 0, none⟩ : BasicState Char Unit).Begin.1).begin =
        (BasicStateFromText "abc" : BasicState Char Unit).Begin.1 ∧
      ((⟨['a', 'b', 'c'], 1, 0, none⟩ : BasicState Char Unit).Begin.2.Rollback
          (⟨['a', 'b', 'c'], 1, 0, none⟩ : BasicState Char Unit).Begin.1).begin =
        (BasicStateFromText "abc" : BasicState Char Unit).Begin.1 ∧
      ((⟨['a', 'b', 'c'], 1, 0, none⟩ : BasicState Char Unit).Begin.2.Commit
          (BasicStateFromText "abc" : BasicState Char Unit).Begin.1).begin = -1 ∧
      ((⟨['a', 'b', 'c'], 1, 0, none⟩ : BasicState Char Unit).Begin.2.Rollback
          (BasicStateFromText "abc" : BasicState Char Unit).Begin.1).begin = -1) ∧
    (BasicStateFromText "abc" : BasicState Char Unit).Begin =
      (0, ⟨['a', 'b', 'c'], 0, 0, none⟩) ∧
    (⟨['a', 'b', 'c'], 0, 0, none⟩ : BasicState Char Unit).Next plainFmt =
      some ((some 'a', none), ⟨['a', 'b', 'c'], 1, 0, none⟩) ∧
    (⟨['a', 'b', 'c'], 1, 0, none⟩ : BasicState Char Unit).Begin =
      (1, ⟨['a', 'b', 'c'], 1, 0, none⟩) ∧
    (⟨['a', 'b', 'c'], 1, 0, none⟩ : BasicState Char Unit).Next plainFmt =
      some ((some 'b', none), ⟨['a', 'b', 'c'], 2, 0, none⟩) ∧
    (⟨['a', 'b', 'c'], 2, 0, none⟩ : BasicState Char Unit).Rollback 1 =
      ⟨['a', 'b', 'c'], 1, 0, none⟩ ∧
    (⟨['a', 'b', 'c'], 1, 0, none⟩ : BasicState Char Unit).Commit 0 =
      ⟨['a', 'b', 'c'], 1, -1, none⟩ :=
  ⟨C9_marker_scoping plainFmt (BasicStateFromText "abc" : BasicState Char Unit)
      ⟨['a', 'b', 'c'], 1, 0, none⟩ 1 [(some 'a', none)] rfl (by decide) rfl
      (by
        intro out ho
        rw [List.mem_singleton] at ho
        rw [ho]),
   rfl, rfl, rfl, rfl, rfl, rfl⟩

/-! ## C10: the marker is cleared only by a matching `Commit` or `Rollback` -/

/-- C10. Take a state whose marker is set to `m` (`m != -1`) and any single method call.  Every
call other than `Next` returns, and so does `Next` in a state of the data model.  Whenever the call
returns: if the marker is `-1` afterwards the call was `Commit(m)` or `Rollback(m)`; these two
calls do clear the marker; and every other call (`Pos`, `SeekTo`, `Next`, `Trap`, `Begin`,
`Commit(t)` or `Rollback(t)` with `t != m`, `Context`, `ReturnContex`, `ResetContex`) leaves the
marker equal to `m`. -/
theorem C10_marker_cleared_only_by_match {α κ ι : Type} (fmtv : String → List ι → String)
    (state : BasicState α κ) (m : Int) (hm : state.begin = m) (hne : m ≠ -1) (op : Op ι κ) :
    ((op ≠ Op.Next ∨ state.InRange) → ∃ r state1, step fmtv op state = some (r, state1)) ∧
    (∀ (r : Ret α κ) (state1 : BasicState α κ), step fmtv op state = some (r, state1) →
        (state1.begin = -1 → op = Op.Commit m ∨ op = Op.Rollback m) ∧
        (op = Op.Commit m ∨ op = Op.Rollback m → state1.begin = -1) ∧
        (op ≠ Op.Commit m → op ≠ Op.Rollback m → state1.begin = m)) := by
  have hB : ∀ (r : Ret α κ) (state1 : BasicState α κ), step fmtv op state = some (r, state1) →
      (op = Op.Commit m ∨ op = Op.Rollback m → state1.begin = -1) ∧
      (op ≠ Op.Commit m → op ≠ Op.Rollback m → state1.begin = m) := by
    intro r state1 hs
    cases op with
    | Pos =>
      simp only [step, Option.some.injEq, Prod.mk.injEq] at hs
      rw [← hs.2]
      exact ⟨fun h => by rcases h with h | h <;> exact Op.noConfusion h, fun _ _ => hm⟩
    | SeekTo pos =>
      simp only [step, Option.some.injEq, Prod.mk.injEq] at hs
      rw [← hs.2]
      refine ⟨fun h => by rcases h with h | h <;> exact Op.noConfusion h, fun _ _ => ?_⟩
      unfold BasicState.SeekTo
      split <;> exact hm
    | Next =>
      simp only [step] at hs
      cases hx : state.Next fmtv with
      | none =>
        rw [hx] at hs
        exact Option.noConfusion hs
      | some p =>
        obtain ⟨⟨re, err⟩, s1⟩ := p
        rw [hx] at hs
        simp only [Option.some.injEq, Prod.mk.injEq] at hs
        rw [← hs.2]
        refine ⟨fun h => by rcases h with h | h <;> exact Op.noConfusion h, fun _ _ => ?_⟩
        exact (Next_frame fmtv hx).2.1.trans hm
    | Trap message args =>
      simp only [step, Option.some.injEq, Prod.mk.injEq] at hs
      rw [← hs.2]
      exact ⟨fun h => by rcases h with h | h <;> exact Op.noConfusion h, fun _ _ => hm⟩
    | Begin =>
      simp only [step, Option.some.injEq, Prod.mk.injEq] at hs
      rw [← hs.2]
      refine ⟨fun h => by rcases h with h | h <;> exact Op.noConfusion h, fun _ _ => ?_⟩
      rw [Begin_begin, if_neg (by rw [hm]; exact hne)]
      exact hm
    | Commit tran =>
      simp only [step, Option.some.injEq, Prod.mk.injEq] at hs
      rw [← hs.2, Commit_begin, hm]
      refine ⟨fun h => ?_, fun hc _ => ?_⟩
      · rcases h with h | h
        · rw [Op.Commit.injEq] at h
          rw [if_pos h.symm]
        · exact Op.noConfusion h
      · have hmt : m ≠ tran := fun h => hc (by rw [h])
        rw [if_neg hmt]
    | Rollback tran =>
      simp only [step, Option.some.injEq, Prod.mk.injEq] at hs
      rw [← hs.2, Rollback_begin, hm]
      refine ⟨fun h => ?_, fun _ hc => ?_⟩
      · rcases h with h | h
        · exact Op.noConfusion h
        · rw [Op.Rollback.injEq] at h
          rw [if_pos h.symm]
      · have hmt : m ≠ tran := fun h => hc (by rw [h])
        rw [if_neg hmt]
    | Context contex =>
      simp only [step, Option.some.injEq, Prod.mk.injEq] at hs
      rw [← hs.2]
      exact ⟨fun h => by rcases h with h | h <;> exact Op.noConfusion h, fun _ _ => hm⟩
    | ReturnContex =>
      simp only [step, Option.some.injEq, Prod.mk.injEq] at hs
      rw [← hs.2]
      exact ⟨fun h => by rcases h with h | h <;> exact Op.noConfusion h, fun _ _ => hm⟩
    | ResetContex =>
      simp only [step, Option.some.injEq, Prod.mk.injEq] at hs
      rw [← hs.2]
      exact ⟨fun h => by rcases h with h | h <;> exact Op.noConfusion h, fun _ _ => hm⟩
  refine ⟨?_, ?_⟩
  · intro htot
    cases op with
    | Next =>
      have hr : state.InRange := by
        rcases htot with h | h
        · exact absurd rfl h
        · exact h
      obtain ⟨out, s1, hx, -⟩ := Next_total fmtv hr
      obtain ⟨re, err⟩ := out
      exact ⟨Ret.item re err, s1, by simp only [step, hx]⟩
    | Pos => exact ⟨_, _, rfl⟩
    | SeekTo pos => exact ⟨_, _, rfl⟩
    | Trap message args => exact ⟨_, _, rfl⟩
    | Begin => exact ⟨_, _, rfl⟩
    | Commit tran => exact ⟨_, _, rfl⟩
    | Rollback tran => exact ⟨_, _, rfl⟩
    | Context contex => exact ⟨_, _, rfl⟩
    | ReturnContex => exact ⟨_, _, rfl⟩
    | ResetContex => exact ⟨_, _, rfl⟩
  · intro r state1 hs
    obtain ⟨hA, hC⟩ := hB r state1 hs
    refine ⟨?_, hA, hC⟩
    intro hclear
    by_contra hcon
    rw [not_or] at hcon
    have := hC hcon.1 hcon.2
    rw [this] at hclear
    exact hne hclear

/-- C10 at concrete inputs, marker 1 at position 2 of `[7, 8, 9]`: `Rollback(1)` clears the
marker, while `Rollback(0)`, `Begin` and `Next` leave it at 1. -/
theorem C10_marker_cleared_only_by_match_witness :
    (((⟨[7, 8, 9], 2, 1, none⟩ : BasicState Nat Unit).Rollback 1).begin = -1) ∧
    (((⟨[7, 8, 9], 2, 1, none⟩ : BasicState Nat Unit).Rollback 0).begin = 1) ∧
    ((⟨[7, 8, 9], 2, 1, none⟩ : BasicState Nat Unit).Begin.2.begin = 1) ∧
    ((⟨[7, 8, 9], 3, 1, none⟩ : BasicState Nat Unit).begin = 1) ∧
    (∃ r state1, step plainFmt (Op.Next : Op Unit Unit)
        (⟨[7, 8, 9], 2, 1, none⟩ : BasicState Nat Unit) = some (r, state1)) :=
  ⟨((C10_marker_cleared_only_by_match plainFmt (⟨[7, 8, 9], 2, 1, none⟩ : BasicState Nat Unit)
        1 rfl (by decide) (Op.Rollback 1)).2 Ret.unit _ rfl).2.1 (Or.inr rfl),
   ((C10_marker_cleared_only_by_match plainFmt (⟨[7, 8, 9], 2, 1, none⟩ : BasicState Nat Unit)
        1 rfl (by decide) (Op.Rollback 0)).2 Ret.unit _ rfl).2.2
      (fun h => Op.noConfusion h) (fun h => by
        rw [Op.Rollback.injEq] at h
        exact absurd h (by decide)),
   ((C10_marker_cleared_only_by_match plainFmt (⟨[7, 8, 9], 2, 1, none⟩ : BasicState Nat Unit)
        1 rfl (by decide) Op.Begin).2 (Ret.int 2) _ rfl).2.2
      (fun h => Op.noConfusion h) (fun h => Op.noConfusion h),
   ((C10_marker_cleared_only_by_match plainFmt (⟨[7, 8, 9], 2, 1, none⟩ : BasicState Nat Unit)
        1 rfl (by decide) Op.Next).2 (Ret.item (some 9) none) ⟨[7, 8, 9], 3, 1, none⟩ rfl).2.2
      (fun h => Op.noConfusion h) (fun h => Op.noConfusion h),
   (C10_marker_cleared_only_by_match plainFmt (⟨[7, 8, 9], 2, 1, none⟩ : BasicState Nat Unit)
        1 rfl (by decide) Op.Next).1 (Or.inr (by decide))⟩

/-! ## C11: `Rollback` is a seek followed by a commit -/

/-- C11. For every state and every integer token `t`, in range or not, the state after
`Rollback(t)` is the state after `SeekTo(t)` followed by `Commit(t)`: the index becomes `t` when
`0 <= t < len(buffer)` and is otherwise unchanged, the marker becomes `-1` when it equalled `t`,
also when the seek failed, and is otherwise unchanged, and buffer and context are unchanged. -/
theorem C11_Rollback_seek_then_commit {α κ : Type} (state : BasicState α κ) (t : Int) :
    state.Rollback t = (state.SeekTo t).2.Commit t ∧
    (state.Rollback t).index =
      (if 0 ≤ t ∧ t < (state.buffer.length : Int) then t else state.index) ∧
    (state.Rollback t).begin = (if state.begin = t then -1 else state.begin) ∧
    (state.Rollback t).buffer = state.buffer ∧
    (state.Rollback t).context = state.context := by
  refine ⟨?_, Rollback_index state t, Rollback_begin state t, Rollback_buffer state t,
    Rollback_context state t⟩
  unfold BasicState.Rollback BasicState.Commit
  rfl

/-- C11 at a concrete input: a rollback to the token 5, outside `[7, 8, 9]`, with the marker at 5
leaves the index at 2 and clears the marker. -/
theorem C11_Rollback_seek_then_commit_witness :
    (⟨[7, 8, 9], 2, 5, none⟩ : BasicState Nat Unit).Rollback 5 =
        ((⟨[7, 8, 9], 2, 5, none⟩ : BasicState Nat Unit).SeekTo 5).2.Commit 5 ∧
    ((⟨[7, 8, 9], 2, 5, none⟩ : BasicState Nat Unit).SeekTo 5).2.Commit 5 =
        ⟨[7, 8, 9], 2, -1, none⟩ :=
  ⟨(C11_Rollback_seek_then_commit (⟨[7, 8, 9], 2, 5, none⟩ : BasicState Nat Unit) 5).1, rfl⟩

/-! ## C12: `Trap` is pure and positional -/

/-- C12. For every state, message and operand list, `Trap(message, args...)` returns the error
whose `Pos` is the current index and whose `Message` is `fmt.Sprintf(message, args...)`; for a
message without `%` and no operand, such as "eof", the `Message` is the message itself; and the
call leaves the state (index, marker, context, buffer) as it was. -/
theorem C12_Trap_pure_positional {α κ ι : Type} (fmtv : String → List ι → String)
    (state : BasicState α κ) (message : String) (args : List ι) :
    (state.Trap fmtv message args).Pos = state.index ∧
    (state.Trap fmtv message args).Message = Sprintf fmtv message args ∧
    (message.toList.all (fun c => c != '%') = true →
        state.Trap fmtv message [] = ⟨state.index, message⟩) ∧
    state.Trap fmtv "eof" [] = ⟨state.index, "eof"⟩ ∧
    step fmtv (Op.Trap message args) state =
      some (Ret.error (state.Trap fmtv message args), state) := by
  refine ⟨rfl, rfl, ?_, ?_, rfl⟩
  · intro h
    unfold BasicState.Trap Sprintf
    rw [h]
    rfl
  · unfold BasicState.Trap
    rw [Sprintf_eof]

/-- C12 at concrete inputs: a verb-free message is kept as it is, and a message with the verbs
`%v` and `%d` is formatted with its operands; the position is the index, 2. -/
theorem C12_Trap_pure_positional_witness :
    (⟨[7, 8, 9], 2, 0, none⟩ : BasicState Nat Unit).Trap plainVerbs "unexpected token" [] =
        ⟨2, "unexpected token"⟩ ∧
    ((⟨[7, 8, 9], 2, 0, none⟩ : BasicState Nat Unit).Trap (fmtVerbs plainVerbs)
        "expect %v but %d" [FmtArg.str "x", FmtArg.int 9]).Message = "expect x but 9" :=
  ⟨(C12_Trap_pure_positional plainVerbs (⟨[7, 8, 9], 2, 0, none⟩ : BasicState Nat Unit)
      "unexpected token" []).2.2.1 (by decide),
   ((C12_Trap_pure_positional (fmtVerbs plainVerbs)
      (⟨[7, 8, 9], 2, 0, none⟩ : BasicState Nat Unit)
      "expect %v but %d" [FmtArg.str "x", FmtArg.int 9]).2.1).trans (by decide)⟩

/-! ## C13: context round trip -/

/-- C13. For every state and every value `v`, `ReturnContex()` after `Context(v)` yields `v`; the
last value written wins; after `ResetContex()` it yields `nil`; and on a cursor built by either
constructor it yields `nil`, as it does after any run of calls without a `Context` call. -/
theorem C13_context_round_trip {α κ ι : Type} (fmtv : String → List ι → String)
    (state : BasicState α κ) :
    (∀ v : Option κ, (state.Context v).ReturnContex = v) ∧
    (∀ v1 v2 : Option κ, ((state.Context v1).Context v2).ReturnContex = v2) ∧
    state.ResetContex.ReturnContex = none ∧
    (∀ v : Option κ, (state.Context v).ResetContex.ReturnContex = none) ∧
    (∀ data : List α, (NewBasicState data : BasicState α κ).ReturnContex = none) ∧
    (∀ str : String, (BasicStateFromText str : BasicState Char κ).ReturnContex = none) ∧
    (∀ (data : List α) (ops : List (Op ι κ)) (tr : List (Ret α κ × BasicState α κ)),
        (∀ op ∈ ops, ∀ v, op ≠ Op.Context v) →
        runOps fmtv ops (NewBasicState data) = some tr →
        ∀ p ∈ tr, p.2.ReturnContex = none) := by
  refine ⟨fun _ => rfl, fun _ _ => rfl, rfl, fun _ => rfl, fun _ => rfl, fun _ => rfl, ?_⟩
  intro data ops tr hops h
  exact runOps_context_none fmtv ops rfl hops h

/-- C13 at concrete inputs: a context written and read back, overwritten, and reset; and a run
without `Context` calls from a fresh cursor, after which the context is still `nil`. -/
theorem C13_context_round_trip_witness :
    ((⟨[7, 8], 1, -1, some 3⟩ : BasicState Nat Nat).Context (some 4)).ReturnContex = some 4 ∧
    (((⟨[7, 8], 1, -1, some 3⟩ : BasicState Nat Nat).Context (some 4)).Context
        (some 5)).ReturnContex = some 5 ∧
    (⟨[7, 8], 1, -1, some 3⟩ : BasicState Nat Nat).ResetContex.ReturnContex = none ∧
    (∀ p ∈ [((Ret.int 0 : Ret Nat Nat), (⟨[7, 8], 0, 0, none⟩ : BasicState Nat Nat)),
            (Ret.item (some 7) none, ⟨[7, 8], 1, 0, none⟩)],
        p.2.ReturnContex = none) :=
  ⟨(C13_context_round_trip plainFmt (⟨[7, 8], 1, -1, some 3⟩ : BasicState Nat Nat)).1 (some 4),
   (C13_context_round_trip plainFmt (⟨[7, 8], 1, -1, some 3⟩ : BasicState Nat Nat)).2.1
      (some 4) (some 5),
   (C13_context_round_trip plainFmt (⟨[7, 8], 1, -1, some 3⟩ : BasicState Nat Nat)).2.2.1,
   (C13_context_round_trip plainFmt (⟨[7, 8], 1, -1, some 3⟩ : BasicState Nat Nat)).2.2.2.2.2.2
      [7, 8] [Op.Begin, Op.Next] _
      (by
        intro op hop v
        rcases List.mem_cons.1 hop with rfl | hop
        · exact fun h => Op.noConfusion h
        · rw [List.mem_singleton] at hop
          rw [hop]
          exact fun h => Op.noConfusion h)
      rfl⟩

/-! ## C14: the context is independent of position and transactions -/

/-- C14. For every state, `Context(v)`, `ReturnContex()` and `ResetContex()` leave index, marker
and buffer unchanged; and `Pos`, `SeekTo`, `Next`, `Trap`, `Begin`, `Commit` and `Rollback`, with
any arguments, succeeding or failing, leave the context slot unchanged. -/
theorem C14_context_independent {α κ ι : Type} (fmtv : String → List ι → String)
    (state : BasicState α κ) :
    (∀ v : Option κ, (state.Context v).index = state.index ∧
        (state.Context v).begin = state.begin ∧ (state.Context v).buffer = state.buffer) ∧
    step fmtv (Op.ReturnContex : Op ι κ) state =
      some (Ret.value state.ReturnContex, state) ∧
    (state.ResetContex.index = state.index ∧ state.ResetContex.begin = state.begin ∧
        state.ResetContex.buffer = state.buffer) ∧
    step fmtv (Op.Pos : Op ι κ) state = some (Ret.int state.Pos, state) ∧
    (∀ p : Int, (state.SeekTo p).2.context = state.context) ∧
    (∀ out state1, state.Next fmtv = some (out, state1) → state1.context = state.context) ∧
    (∀ (message : String) (args : List ι), step fmtv (Op.Trap message args : Op ι κ) state =
        some (Ret.error (state.Trap fmtv message args), state)) ∧
    state.Begin.2.context = state.context ∧
    (∀ t : Int, (state.Commit t).context = state.context) ∧
    (∀ t : Int, (state.Rollback t).context = state.context) ∧
    (∀ (op : Op ι κ) (r : Ret α κ) (state1 : BasicState α κ),
        step fmtv op state = some (r, state1) →
        (∀ v, op ≠ Op.Context v) → op ≠ Op.ResetContex → state1.context = state.context) := by
  refine ⟨fun _ => ⟨rfl, rfl, rfl⟩, rfl, ⟨rfl, rfl, rfl⟩, rfl,
    fun p => (SeekTo_frame state p).2.2, fun out state1 h => (Next_frame fmtv h).2.2,
    fun _ _ => rfl, (Begin_frame state).2.2, fun t => (Commit_frame state t).2.2,
    fun t => Rollback_context state t, ?_⟩
  intro op r state1 hs h1 h2
  exact step_context fmtv hs h1 h2

/-- C14 at concrete inputs: `Next` on a cursor with context 3 keeps the context, and `Context(4)`
keeps position 1 and marker 0. -/
theorem C14_context_independent_witness :
    (⟨[7, 8], 2, 0, some 3⟩ : BasicState Nat Nat).context = some 3 ∧
    ((⟨[7, 8], 1, 0, some 3⟩ : BasicState Nat Nat).Context (some 4)).index = 1 ∧
    ((⟨[7, 8], 1, 0, some 3⟩ : BasicState Nat Nat).Context (some 4)).begin = 0 :=
  ⟨(C14_context_independent plainFmt (⟨[7, 8], 1, 0, some 3⟩ : BasicState Nat Nat)).2.2.2.2.2.1
      (some 8, none) ⟨[7, 8], 2, 0, some 3⟩ rfl,
   ((C14_context_independent plainFmt (⟨[7, 8], 1, 0, some 3⟩ : BasicState Nat Nat)).1
      (some 4)).1,
   ((C14_context_independent plainFmt (⟨[7, 8], 1, 0, some 3⟩ : BasicState Nat Nat)).1
      (some 4)).2.1⟩

/-! ## C15: construction -/

/-- C15. For every list `data`, `NewBasicState(data)` is the cursor whose buffer is `data` (same
length, same items in the same order), at position 0, with the marker `-1` and the context `nil`;
for every text `str`, `BasicStateFromText(str)` is `NewBasicState` of the list of the characters of
`str`, so that its buffer holds one item per character, in order, and has the length of `str`. -/
theorem C15_construction {α κ : Type} (data : List α) (str : String) :
    (NewBasicState data : BasicState α κ).buffer = data ∧
    (NewBasicState data : BasicState α κ).buffer.length = data.length ∧
    (NewBasicState data : BasicState α κ).Pos = 0 ∧
    (NewBasicState data : BasicState α κ).begin = -1 ∧
    (NewBasicState data : BasicState α κ).ReturnContex = none ∧
    (BasicStateFromText str : BasicState Char κ) = NewBasicState str.toList ∧
    (BasicStateFromText str : BasicState Char κ).buffer = str.toList ∧
    (BasicStateFromText str : BasicState Char κ).buffer.length = str.length ∧
    (BasicStateFromText str : BasicState Char κ).Pos = 0 ∧
    (BasicStateFromText str : BasicState Char κ).begin = -1 ∧
    (BasicStateFromText str : BasicState Char κ).ReturnContex = none := by
  have h : (BasicStateFromText str : BasicState Char κ) = NewBasicState str.toList :=
    BasicStateFromText_eq str
  refine ⟨rfl, rfl, rfl, rfl, rfl, h, ?_, ?_, ?_, ?_, ?_⟩ <;> rw [h] <;> rfl

/-! ## C16: the position invariant -/

/-- C16. In every state reachable from `NewBasicState` or `BasicStateFromText` by any finite
sequence of method calls with arbitrary arguments, `0 <= index <= len(buffer)`; hence `Next`
returns without panic, the buffer access it makes when `index != len(buffer)` being in bounds, and
every further finite sequence of calls runs without panic through states with
`0 <= index <= len(buffer)`. -/
theorem C16_position_invariant {α κ ι : Type} (fmtv : String → List ι → String)
    (state : BasicState α κ) (h : Reachable fmtv state) :
    0 ≤ state.index ∧ state.index ≤ (state.buffer.length : Int) ∧
    (state.index ≠ (state.buffer.length : Int) →
        ∃ re, state.buffer[state.index.toNat]? = some re) ∧
    (∃ out state1, state.Next fmtv = some (out, state1)) ∧
    (∀ ops : List (Op ι κ), ∃ tr, runOps fmtv ops state = some tr ∧
        ∀ p ∈ tr, 0 ≤ p.2.index ∧ p.2.index ≤ (p.2.buffer.length : Int)) := by
  have hr : state.InRange := InRange_of_Reachable fmtv h
  refine ⟨hr.1, hr.2, ?_, ?_, ?_⟩
  · intro hne
    obtain ⟨re, hre, -⟩ := Next_of_lt fmtv state hr.1 (by have := hr.2; omega)
    exact ⟨re, hre⟩
  · obtain ⟨out, s1, hn, -⟩ := Next_total fmtv hr
    exact ⟨out, s1, hn⟩
  · intro ops
    obtain ⟨tr, htr, -, hall⟩ := runOps_total fmtv ops hr
    exact ⟨tr, htr, hall⟩

/-- C16 at a concrete input: the state reached from the text "ab" by `Next`, a failing
`SeekTo(5)`, `Rollback(-3)` and `Next` is at position 2, within `[0, 2]`. -/
theorem C16_position_invariant_witness :
    0 ≤ (⟨['a', 'b'], 2, -1, none⟩ : BasicState Char Unit).index ∧
    (⟨['a', 'b'], 2, -1, none⟩ : BasicState Char Unit).index ≤
      ((⟨['a', 'b'], 2, -1, none⟩ : BasicState Char Unit).buffer.length : Int) :=
  have h1 : Reachable plainFmt (⟨['a', 'b'], 1, -1, none⟩ : BasicState Char Unit) :=
    Reachable.step Op.Next (Ret.item (some 'a') none) (Reachable.text "ab") rfl
  have h2 : Reachable plainFmt (⟨['a', 'b'], 1, -1, none⟩ : BasicState Char Unit) :=
    Reachable.step (Op.SeekTo 5) (Ret.bool false) h1 rfl
  have h3 : Reachable plainFmt (⟨['a', 'b'], 1, -1, none⟩ : BasicState Char Unit) :=
    Reachable.step (Op.Rollback (-3)) Ret.unit h2
      (by simp [step, BasicState.Rollback, BasicState.SeekTo])
  have h4 : Reachable plainFmt (⟨['a', 'b'], 2, -1, none⟩ : BasicState Char Unit) :=
    Reachable.step Op.Next (Ret.item (some 'b') none) h3 rfl
  ⟨(C16_position_invariant plainFmt _ h4).1, (C16_position_invariant plainFmt _ h4).2.1⟩

/-! ## C17: positioning does not depend on the marker -/

/-- C17. Take two states that agree on buffer, index and context and differ arbitrarily in the
marker.  The same finite sequence of method calls on both panics on both or on neither, returns
the same value at every call (the results of `Pos`, `SeekTo`, `Next`, `Begin`, `ReturnContex`, the
errors of `Next` and `Trap`) and leaves the same buffer, index and context after every call; in
particular the position after `Rollback(t)` and after `Commit(t)` is the same in both. -/
theorem C17_marker_independence {α κ ι : Type} (fmtv : String → List ι → String)
    (s1 s2 : BasicState α κ) (hb : s1.buffer = s2.buffer) (hi : s1.index = s2.index)
    (hc : s1.context = s2.context) (ops : List (Op ι κ)) :
    (runOps fmtv ops s1).map (List.map observed) =
      (runOps fmtv ops s2).map (List.map observed) ∧
    (∀ t : Int, (s1.Rollback t).Pos = (s2.Rollback t).Pos ∧
        (s1.Commit t).Pos = (s2.Commit t).Pos) := by
  obtain ⟨b1, i1, m1, c1⟩ := s1
  obtain ⟨b2, i2, m2, c2⟩ := s2
  simp only at hb hi hc
  subst hb hi hc
  refine ⟨runOps_marker_indep fmtv ops b1 i1 m1 m2 c1, ?_⟩
  intro t
  unfold BasicState.Pos
  rw [Rollback_index, Rollback_index, (Commit_frame _ t).2.1, (Commit_frame _ t).2.1]
  exact ⟨rfl, rfl⟩

/-- C17 at a concrete input: the same six calls on the cursor over "abc" at position 1, once with
the marker unset and once with the marker 1; the run returns on both. -/
theorem C17_marker_independence_witness :
    ((runOps plainFmt [Op.Begin, Op.Next, Op.Rollback 1, Op.Commit 1, Op.Next, Op.Pos]
          (⟨['a', 'b', 'c'], 1, -1, none⟩ : BasicState Char Unit)).map (List.map observed) =
        (runOps plainFmt [Op.Begin, Op.Next, Op.Rollback 1, Op.Commit 1, Op.Next, Op.Pos]
          (⟨['a', 'b', 'c'], 1, 1, none⟩ : BasicState Char Unit)).map (List.map observed)) ∧
    (runOps plainFmt [Op.Begin, Op.Next, Op.Rollback 1, Op.Commit 1, Op.Next, Op.Pos]
        (⟨['a', 'b', 'c'], 1, -1, none⟩ : BasicState Char Unit)).isSome = true :=
  ⟨(C17_marker_independence plainFmt (⟨['a', 'b', 'c'], 1, -1, none⟩ : BasicState Char Unit)
      ⟨['a', 'b', 'c'], 1, 1, none⟩ rfl rfl rfl _).1, rfl⟩

/-! ## C18: the sequence is fixed -/

/-- C18. For every state and every method call (`Pos`, `SeekTo`, `Next`, `Trap`, `Begin`,
`Commit`, `Rollback`, `Context`, `ReturnContex`, `ResetContex`) with any arguments, the buffer
after the call is the buffer before it; hence through every finite sequence of calls on a cursor
built by `NewBasicState(data)` the buffer is `data`, and on a cursor built by
`BasicStateFromText(str)` it is the list of the characters of `str`; such a sequence always
runs. -/
theorem C18_buffer_fixed {α κ ι : Type} (fmtv : String → List ι → String) :
    (∀ (state state1 : BasicState α κ) (op : Op ι κ) (r : Ret α κ),
        step fmtv op state = some (r, state1) → state1.buffer = state.buffer) ∧
    (∀ (state : BasicState α κ) (p : Int), (state.SeekTo p).2.buffer = state.buffer) ∧
    (∀ (state state1 : BasicState α κ) (out : Option α × Option Error),
        state.Next fmtv = some (out, state1) → state1.buffer = state.buffer) ∧
    (∀ state : BasicState α κ, state.Begin.2.buffer = state.buffer) ∧
    (∀ (state : BasicState α κ) (t : Int), (state.Commit t).buffer = state.buffer) ∧
    (∀ (state : BasicState α κ) (t : Int), (state.Rollback t).buffer = state.buffer) ∧
    (∀ (state : BasicState α κ) (v : Option κ), (state.Context v).buffer = state.buffer) ∧
    (∀ state : BasicState α κ, state.ResetContex.buffer = state.buffer) ∧
    (∀ (data : List α) (ops : List (Op ι κ)), ∃ tr,
        runOps fmtv ops (NewBasicState data : BasicState α κ) = some tr ∧
        ∀ p ∈ tr, p.2.buffer = data) ∧
    (∀ (str : String) (ops : List (Op ι κ)), ∃ tr,
        runOps fmtv ops (BasicStateFromText str : BasicState Char κ) = some tr ∧
        ∀ p ∈ tr, p.2.buffer = str.toList) := by
  have hnew : ∀ {β : Type} (data : List β) (ops : List (Op ι κ)), ∃ tr,
      runOps fmtv ops (NewBasicState data : BasicState β κ) = some tr ∧
      ∀ p ∈ tr, p.2.buffer = data := by
    intro β data ops
    have hr : (NewBasicState data : BasicState β κ).InRange := by
      simp [BasicState.InRange, NewBasicState]
    obtain ⟨tr, htr, -, -⟩ := runOps_total fmtv ops hr
    exact ⟨tr, htr, fun p hp => runOps_buffer fmtv ops htr p hp⟩
  refine ⟨fun state state1 op r hs => step_buffer fmtv hs,
    fun state p => (SeekTo_frame state p).1,
    fun state state1 out h => (Next_frame fmtv h).1,
    fun state => (Begin_frame state).1,
    fun state t => (Commit_frame state t).1,
    fun state t => Rollback_buffer state t,
    fun _ _ => rfl, fun _ => rfl, fun data ops => hnew data ops, ?_⟩
  intro str ops
  rw [BasicStateFromText_eq]
  exact hnew str.toList ops

/-- C18 at a concrete input: after `Next`, `Rollback(0)`, `Context(5)` on the cursor over
`[7, 8]` the buffer is `[7, 8]`. -/
theorem C18_buffer_fixed_witness :
    (⟨[7, 8], 1, -1, none⟩ : BasicState Nat Nat).buffer =
        (NewBasicState [7, 8] : BasicState Nat Nat).buffer ∧
    ((⟨[7, 8], 1, -1, none⟩ : BasicState Nat Nat).Rollback 0).buffer = [7, 8] :=
  ⟨(C18_buffer_fixed (α := Nat) (κ := Nat) plainFmt).1 (NewBasicState [7, 8])
      ⟨[7, 8], 1, -1, none⟩ Op.Next (Ret.item (some 7) none) rfl,
   (C18_buffer_fixed (α := Nat) (κ := Nat) plainFmt).2.2.2.2.2.1 ⟨[7, 8], 1, -1, none⟩ 0⟩

/-! ## C19: rendering of the positional error -/

/-- C19, as stated, fails.  The error at position 2 with the message "eof" is rendered as
"stop at 2 : eof": the word "position" is absent and a blank stands on either side of the colon,
so that the text is not "stop at position 2: eof". -/
theorem C19_error_rendering_counterexample :
    Error.Error plainVerbs ⟨2, "eof"⟩ = "stop at 2 : eof" ∧
    Error.Error plainVerbs ⟨2, "eof"⟩ ≠ "stop at position 2: eof" := by
  decide

/-- C19, amended.  For every positional error with position `P` and message `m`, `Error()` yields
the text "stop at P : m": "stop at ", then `P` in decimal, then " : ", then the message as it
is. -/
theorem C19_error_rendering_amended (fmtv : String → List FmtArg → String) (e : Error) :
    Error.Error fmtv e = "stop at " ++ toString e.Pos ++ " : " ++ e.Message := by
  unfold Error.Error Sprintf
  rw [if_neg (by simp)]
  unfold fmtVerbs
  have h : fmtFragment "stop at %d : %v".toList [.int e.Pos, .str e.Message] =
      some ("stop at " ++ toString e.Pos ++ " : " ++ e.Message) := by
    simp [fmtFragment, FmtArg.render]
    apply String.ext
    simp [String.data_append]
  rw [h]

/-- C19 amended, at a concrete input: a negative position and a message holding a `%`. -/
theorem C19_error_rendering_amended_witness :
    Error.Error plainVerbs ⟨-12, "100% wrong"⟩ = "stop at -12 : 100% wrong" :=
  (C19_error_rendering_amended plainVerbs ⟨-12, "100% wrong"⟩).trans (by decide)

/-! ## C20: what `Begin` records in the marker -/

/-- C20 does not hold of the code.  On the cursor over "abc", after `Begin()` at position 0 and
one `Next()`, the state is at position 1 with the marker 0; it is reachable.  A second `Begin()`
returns 1 and leaves the marker at 0, the earlier of the recorded position 0 and the current
position 1, not the later one. -/
theorem C20_Begin_keeps_earlier_marker :
    Reachable plainFmt (⟨['a', 'b', 'c'], 1, 0, none⟩ : BasicState Char Unit) ∧
    (⟨['a', 'b', 'c'], 1, 0, none⟩ : BasicState Char Unit).Begin =
      (1, ⟨['a', 'b', 'c'], 1, 0, none⟩) ∧
    max (⟨['a', 'b', 'c'], 1, 0, none⟩ : BasicState Char Unit).begin
        (⟨['a', 'b', 'c'], 1, 0, none⟩ : BasicState Char Unit).Pos = 1 ∧
    (⟨['a', 'b', 'c'], 1, 0, none⟩ : BasicState Char Unit).Begin.2.begin ≠
      max (⟨['a', 'b', 'c'], 1, 0, none⟩ : BasicState Char Unit).begin
        (⟨['a', 'b', 'c'], 1, 0, none⟩ : BasicState Char Unit).Pos := by
  refine ⟨?_, rfl, by decide, by decide⟩
  have h0 : Reachable plainFmt (⟨['a', 'b', 'c'], 0, 0, none⟩ : BasicState Char Unit) :=
    Reachable.step Op.Begin (Ret.int 0) (Reachable.text "abc") rfl
  exact Reachable.step Op.Next (Ret.item (some 'a') none) h0 rfl

end GoP2
